import Mathlib

/-!
Verification of the core of `testingon_converter` (`src/main.py`, `src/config.py`):
the Azure "steps"-field parser (`parse_steps_from_tcm_field`) and the
structured-output recoverer (`extract_json_object`, `ensure_step_defaults`,
`validate_payload`, and the `references.steps` merge inside `run_conversion`).

The Python code is shallowly embedded: dictionaries become association lists of
`String × Json` pairs, Python exceptions become `Except`/`Option`, and the text
scanning done by `re`/`html`/`json`/`xml.etree` is reimplemented as executable
fuel-based recursions over `List Char` that follow the documented semantics of
the stdlib calls the source makes (leftmost regex match, greedy vs. lazy
quantifiers, strict JSON grammar, strict XML well-formedness).  Simplifications
against CPython, stated where they occur, are confined to unicode-table details
(only the HTML entities relevant to this field format are in the unescape
table; `str.lower`/`str.strip` are modelled on their ASCII behaviour plus
NBSP).
-/

namespace TCConv

/-! ## Python-style primitive string operations -/

/-- The whitespace set of Python's `str.strip()` / `re` `\s` on the characters
this code can meet: space, tab, newline, carriage return, vertical tab, form
feed, and NBSP (which Python treats as whitespace in unicode mode). -/
def isPyWs (c : Char) : Bool :=
  c = ' ' || c = '\t' || c = '\n' || c = '\r' || c = '\x0b' || c = '\x0c' || c = ' '

/-- `str.strip()` on a character list: drop leading and trailing whitespace. -/
def pyStripList (cs : List Char) : List Char :=
  ((cs.dropWhile isPyWs).reverse.dropWhile isPyWs).reverse

/-- Python `str.strip()` (no argument form). -/
def pythonStrip (s : String) : String :=
  ⟨pyStripList s.data⟩

/-- ASCII lowering of one character; model of `str.lower()` per character. -/
def asciiLower (c : Char) : Char :=
  if 'A' ≤ c ∧ c ≤ 'Z' then Char.ofNat (c.toNat + 32) else c

/-- Model of `str.lower()`. -/
def toLowerStr (s : String) : String :=
  ⟨s.data.map asciiLower⟩

/-- Python `needle in haystack` on strings: contiguous-substring check. -/
def listHasInfix (pat : List Char) : List Char → Bool
  | [] => pat.isEmpty
  | c :: t => pat.isPrefixOf (c :: t) || listHasInfix pat t

/-- `m.group(0)`-style slicing: the characters in positions `[i, j)`. -/
def slice (cs : List Char) (i j : Nat) : List Char :=
  (cs.take j).drop i

/-- First index `k` in `[start, start + fuel)` with `p k = true`; the loop a
regex engine runs when it searches for a leftmost match. -/
def findFirst (p : Nat → Bool) : Nat → Nat → Option Nat
  | _, 0 => none
  | start, fuel + 1 => if p start then some start else findFirst p (start + 1) fuel

/-! ## JSON data model (the values `json.loads` produces)

Numbers keep their source spelling (`num lit`), which avoids importing float
semantics; no claim in this development compares numbers arithmetically. -/

inductive Json where
  | null
  | bool (b : Bool)
  | num (lit : String)
  | str (s : String)
  | arr (xs : List Json)
  | obj (m : List (String × Json))

/-- `d.get(k)` on a Python dict modelled as an association list with the first
binding of a key authoritative (the parser and `objSet` keep keys unique). -/
def objGet (m : List (String × Json)) (k : String) : Option Json :=
  match m with
  | [] => none
  | (k', v) :: t => if k' = k then some v else objGet t k

/-- `d[k] = v` on a Python dict: update the existing binding in place, else
append a new binding at the end (insertion order). -/
def objSet (m : List (String × Json)) (k : String) (v : Json) : List (String × Json) :=
  match m with
  | [] => [(k, v)]
  | (k', v') :: t => if k' = k then (k, v) :: t else (k', v') :: objSet t k v

/-- Whether a JSON number literal denotes zero: no nonzero digit in the
mantissa (the part before any exponent marker). -/
def numLitIsZero (lit : String) : Bool :=
  (lit.data.takeWhile (fun c => ¬ (c = 'e' ∨ c = 'E'))).all
    (fun c => ¬ (c.isDigit ∧ c ≠ '0'))

/-- Python truthiness (`bool(x)`) of a JSON value: `None`, `False`, zero,
and empty strings/lists/dicts are falsy. -/
def pyTruthy : Json → Bool
  | .null => false
  | .bool b => b
  | .num lit => ¬ numLitIsZero lit
  | .str s => ¬ s.data.isEmpty
  | .arr xs => ¬ xs.isEmpty
  | .obj m => ¬ m.isEmpty

/-- `isinstance(v, dict)`. -/
def Json.isObj : Json → Bool
  | .obj _ => true
  | _ => false

/-- `isinstance(v, list)`. -/
def Json.isArr : Json → Bool
  | .arr _ => true
  | _ => false

/-! ## A strict JSON parser: the model of `json.loads`

Follows the JSON grammar that CPython's `json` module accepts, minus two
unicode details irrelevant here: lone-surrogate `\uXXXX` escapes are rejected
(Lean `Char` cannot carry them) and the `NaN`/`Infinity` extensions are not in
the model. -/

/-- JSON whitespace (`json.decoder.WHITESPACE`). -/
def isJWs (c : Char) : Bool :=
  c = ' ' || c = '\t' || c = '\n' || c = '\r'

def skipJWs (cs : List Char) : List Char := cs.dropWhile isJWs

def hexVal (c : Char) : Option Nat :=
  if '0' ≤ c ∧ c ≤ '9' then some (c.toNat - '0'.toNat)
  else if 'a' ≤ c ∧ c ≤ 'f' then some (c.toNat - 'a'.toNat + 10)
  else if 'A' ≤ c ∧ c ≤ 'F' then some (c.toNat - 'A'.toNat + 10)
  else none

/-- The single-character string escapes of JSON. -/
def escChar : Char → Option Char
  | '"' => some '"'
  | '\\' => some '\\'
  | '/' => some '/'
  | 'b' => some '\x08'
  | 'f' => some '\x0c'
  | 'n' => some '\n'
  | 'r' => some '\r'
  | 't' => some '\t'
  | _ => none

/-- Scan a JSON string body (after the opening quote) up to the closing
quote, decoding escapes; raw control characters are rejected (strict mode). -/
def parseJStringL : List Char → Option (List Char × List Char)
  | [] => none
  | c :: rest =>
    if c = '"' then some ([], rest)
    else if c = '\\' then
      match rest with
      | [] => none
      | e :: rest2 =>
        if e = 'u' then
          match rest2 with
          | h1 :: h2 :: h3 :: h4 :: rest3 =>
            match hexVal h1, hexVal h2, hexVal h3, hexVal h4 with
            | some a, some b, some cc, some d =>
              if 0xD800 ≤ ((a * 16 + b) * 16 + cc) * 16 + d ∧
                  ((a * 16 + b) * 16 + cc) * 16 + d ≤ 0xDFFF then none
              else
                match parseJStringL rest3 with
                | some (s, r) =>
                  some (Char.ofNat (((a * 16 + b) * 16 + cc) * 16 + d) :: s, r)
                | none => none
            | _, _, _, _ => none
          | _ => none
        else
          match escChar e with
          | some c2 =>
            match parseJStringL rest2 with
            | some (s, r) => some (c2 :: s, r)
            | none => none
          | none => none
    else if c.toNat < 0x20 then none
    else
      match parseJStringL rest with
      | some (s, r) => some (c :: s, r)
      | none => none

/-- The integer part of `json`'s NUMBER_RE: `-?(0|[1-9]\d*)` without sign. -/
def parseIntPart : List Char → Option (List Char × List Char)
  | [] => none
  | c :: rest =>
    if c = '0' then some (['0'], rest)
    else if c.isDigit then
      some (c :: rest.takeWhile Char.isDigit, rest.dropWhile Char.isDigit)
    else none

/-- `(\.\d+)?` — empty when absent. -/
def parseFracPart (cs : List Char) : List Char × List Char :=
  match cs with
  | c :: rest =>
    if c = '.' then
      if (rest.takeWhile Char.isDigit).isEmpty then ([], cs)
      else ('.' :: rest.takeWhile Char.isDigit, rest.dropWhile Char.isDigit)
    else ([], cs)
  | [] => ([], cs)

/-- `([eE][-+]?\d+)?` — empty when absent. -/
def parseExpPart (cs : List Char) : List Char × List Char :=
  match cs with
  | e :: s :: rest =>
    if e = 'e' ∨ e = 'E' then
      if s = '+' ∨ s = '-' then
        let ds := rest.takeWhile Char.isDigit
        if ds.isEmpty then ([], cs) else (e :: s :: ds, rest.dropWhile Char.isDigit)
      else
        let ds := (s :: rest).takeWhile Char.isDigit
        if ds.isEmpty then ([], cs) else (e :: ds, (s :: rest).dropWhile Char.isDigit)
    else ([], cs)
  | _ => ([], cs)

/-- The optional leading `-` of a number. -/
def signSplit (cs : List Char) : List Char × List Char :=
  match cs with
  | '-' :: t => (['-'], t)
  | _ => ([], cs)

/-- A JSON number lexeme at the head of the input, kept as its spelling. -/
def parseNumber (cs : List Char) : Option (String × List Char) :=
  match parseIntPart (signSplit cs).2 with
  | none => none
  | some (ip, cs2) =>
    some (⟨(signSplit cs).1 ++ ip ++ (parseFracPart cs2).1 ++
      (parseExpPart (parseFracPart cs2).2).1⟩, (parseExpPart (parseFracPart cs2).2).2)

mutual

/-- One JSON value at the head of the input (after optional whitespace). -/
def parseValue : Nat → List Char → Option (Json × List Char)
  | 0, _ => none
  | f + 1, cs =>
    match skipJWs cs with
    | '{' :: t => parseObjBody f t
    | '[' :: t => parseArrBody f t
    | '"' :: t =>
      match parseJStringL t with
      | some (s, r) => some (.str ⟨s⟩, r)
      | none => none
    | cs1 =>
      if "null".data.isPrefixOf cs1 then some (.null, cs1.drop 4)
      else if "true".data.isPrefixOf cs1 then some (.bool true, cs1.drop 4)
      else if "false".data.isPrefixOf cs1 then some (.bool false, cs1.drop 5)
      else
        match parseNumber cs1 with
        | some (lit, r) => some (.num lit, r)
        | none => none

/-- An object body, positioned just after `{`. -/
def parseObjBody : Nat → List Char → Option (Json × List Char)
  | 0, _ => none
  | f + 1, cs =>
    match skipJWs cs with
    | '}' :: r => some (.obj [], r)
    | cs1 => parseMembers f cs1 []

/-- The `key : value (, key : value)* }` loop of an object body; duplicate
keys follow Python dict semantics (first position, last value). -/
def parseMembers : Nat → List Char → List (String × Json) →
    Option (Json × List Char)
  | 0, _, _ => none
  | f + 1, cs, acc =>
    match cs with
    | '"' :: t =>
      match parseJStringL t with
      | some (k, r1) =>
        match skipJWs r1 with
        | ':' :: r2 =>
          match parseValue f r2 with
          | some (v, r3) =>
            match skipJWs r3 with
            | ',' :: r4 => parseMembers f (skipJWs r4) (objSet acc ⟨k⟩ v)
            | '}' :: r4 => some (.obj (objSet acc ⟨k⟩ v), r4)
            | _ => none
          | none => none
        | _ => none
      | none => none
    | _ => none

/-- An array body, positioned just after `[`. -/
def parseArrBody : Nat → List Char → Option (Json × List Char)
  | 0, _ => none
  | f + 1, cs =>
    match skipJWs cs with
    | ']' :: r => some (.arr [], r)
    | cs1 => parseElems f cs1 []

/-- The `value (, value)* ]` loop of an array body. -/
def parseElems : Nat → List Char → List Json → Option (Json × List Char)
  | 0, _, _ => none
  | f + 1, cs, acc =>
    match parseValue f cs with
    | some (v, r1) =>
      match skipJWs r1 with
      | ',' :: r2 => parseElems f r2 (acc ++ [v])
      | ']' :: r2 => some (.arr (acc ++ [v]), r2)
      | _ => none
    | none => none

end

/-- `json.loads`: a single JSON value spanning the whole input (trailing
whitespace allowed, anything else is "Extra data").  The fuel is generous:
every recursive step consumes at least one character. -/
def Json.parse (s : String) : Option Json :=
  match parseValue (4 * (s.length + 4)) s.data with
  | some (j, rest) => if (skipJWs rest).isEmpty then some j else none
  | none => none

/-! ## `extract_json_object` (src/main.py lines 56-77) -/

/-- The failure modes of `extract_json_object`, by raise site: the
"No JSON object found" `ValueError` (line 71), the uncaught
`json.JSONDecodeError` from `json.loads(candidate)` (line 74), and the
"Extracted JSON is not an object/dict" `ValueError` (line 76). -/
inductive ExtractError where
  | noJsonFound
  | malformedJsonRegion
  | notAnObject
deriving DecidableEq, Repr

/-- The text has a `{` with some `}` strictly after it — the condition
under which `re.search(r"\x7b.*\x7d", ...)` matches. -/
def HasPair (cs : List Char) : Prop :=
  ∃ p mid q, cs = p ++ '{' :: mid ++ '}' :: q

/-- Executable check for `HasPair`. -/
def hasPairB (cs : List Char) : Bool :=
  match cs.dropWhile (fun c => !(c == '{')) with
  | [] => false
  | _ :: t => t.any (fun c => c == '}')

/-- `cs[i]? = some c`, as a Bool. -/
def isCharAt (cs : List Char) (i : Nat) (c : Char) : Bool :=
  match cs[i]? with
  | some c' => c' == c
  | none => false

/-- Last index `j < n` with `p j = true`. -/
def findLast (p : Nat → Bool) (n : Nat) : Option Nat :=
  match findFirst (fun k => p (n - 1 - k)) 0 n with
  | some k => some (n - 1 - k)
  | none => none

/-- Whether some `}` occurs strictly after position `i`. -/
def hasCloseAfterB (cs : List Char) (i : Nat) : Bool :=
  (findFirst (fun j => isCharAt cs j '}') (i + 1) cs.length).isSome

/-- `re.search(r"\x7b.*\x7d", text, flags=re.DOTALL)`: the leftmost start is
the first `{` that has some `}` after it, and the greedy `.*` then runs to
the last `}` of the whole text. -/
def reFindBraces (s : String) : Option String :=
  let cs := s.data
  match findFirst (fun i => isCharAt cs i '{' && hasCloseAfterB cs i) 0 cs.length with
  | none => none
  | some i =>
    match findLast (fun j => isCharAt cs j '}') cs.length with
    | some j => some ⟨slice cs i (j + 1)⟩
    | none => none

/-- Modelled from the spec's words, for comparison with `reFindBraces`: the
substring from the first `{` of the text to the last `}` of the text,
provided the former precedes the latter. -/
def specJsonRegion (s : String) : Option String :=
  let cs := s.data
  match findFirst (fun i => isCharAt cs i '{') 0 cs.length,
        findLast (fun j => isCharAt cs j '}') cs.length with
  | some i, some j => if i < j then some ⟨slice cs i (j + 1)⟩ else none
  | _, _ => none

/-- The fallback branch of `extract_json_object` (lines 68-77): search for
the `{...}` region, parse it (a parse failure here propagates), and require
a dict. -/
def extractFallback (t : String) : Except ExtractError Json :=
  match reFindBraces t with
  | none => .error .noJsonFound
  | some candidate =>
    match Json.parse candidate with
    | none => .error .malformedJsonRegion
    | some j => if j.isObj then .ok j else .error .notAnObject

/-- `extract_json_object(text)` (src/main.py lines 56-77).  The first
`try` block parses the whole stripped text; both a parse failure and the
explicit `ValueError` for a non-dict top level are caught by the bare
`except`, falling through to the `{...}` search. -/
def extract_json_object (text : String) : Except ExtractError Json :=
  let t := pythonStrip text
  match Json.parse t with
  | some j => if j.isObj then .ok j else extractFallback t
  | none => extractFallback t

/-! ## XML model: `xml.etree.ElementTree.fromstring`

The modelled fragment is what this field format uses: elements, attributes,
character data, the five predefined entities and numeric character
references, with strict well-formedness (undefined entities, stray `&`,
control characters, unclosed or mismatched tags, and trailing junk are all
parse errors, as under expat).  XML declarations, comments, CDATA sections,
processing instructions and doctypes are outside the fragment. -/

/-- An element tree; `text` nodes carry the character data between markup,
so that depth-first concatenation equals `"".join(elem.itertext())`. -/
inductive XNode where
  | elem (tag : String) (attrs : List (String × String)) (children : List XNode)
  | text (s : String)

def isXmlWs (c : Char) : Bool :=
  c = ' ' || c = '\t' || c = '\n' || c = '\r'

def isNameStart (c : Char) : Bool := c.isAlpha || c = '_' || c = ':'

def isNameChar (c : Char) : Bool :=
  c.isAlphanum || c = '_' || c = ':' || c = '-' || c = '.'

/-- An XML name at the head of the input. -/
def parseXName (cs : List Char) : Option (String × List Char) :=
  match cs with
  | c :: t =>
    if isNameStart c then some (⟨c :: t.takeWhile isNameChar⟩, t.dropWhile isNameChar)
    else none
  | [] => none

/-- A character legal in XML character data (control characters other than
tab, newline and carriage return are not well-formed). -/
def isXmlTextChar (c : Char) : Bool :=
  0x20 ≤ c.toNat || c = '\t' || c = '\n' || c = '\r'

/-- An XML character reference value as a character; invalid code points are
a parse error. -/
def xmlCharRef (n : Nat) : Option Char :=
  if n.isValidChar then some (Char.ofNat n) else none

/-- One entity reference after `&`: a predefined entity or a character
reference.  Anything else is expat's "undefined entity" error — the very
error `_sanitize_for_xml` exists to avoid. -/
def xmlEntity (cs : List Char) : Option (Char × List Char) :=
  if "lt;".data.isPrefixOf cs then some ('<', cs.drop 3)
  else if "gt;".data.isPrefixOf cs then some ('>', cs.drop 3)
  else if "amp;".data.isPrefixOf cs then some ('&', cs.drop 4)
  else if "apos;".data.isPrefixOf cs then some ('\'', cs.drop 5)
  else if "quot;".data.isPrefixOf cs then some ('"', cs.drop 5)
  else
    match cs with
    | '#' :: c2 :: t =>
      if c2 = 'x' ∨ c2 = 'X' then
        let ds := t.takeWhile fun c => (hexVal c).isSome
        match t.dropWhile fun c => (hexVal c).isSome with
        | ';' :: r =>
          if ds.isEmpty then none
          else
            match xmlCharRef (ds.foldl (fun a c => a * 16 + (hexVal c).getD 0) 0) with
            | some ch => some (ch, r)
            | none => none
        | _ => none
      else
        let ds := (c2 :: t).takeWhile Char.isDigit
        match (c2 :: t).dropWhile Char.isDigit with
        | ';' :: r =>
          if ds.isEmpty then none
          else
            match xmlCharRef (ds.foldl (fun a c => a * 10 + (c.toNat - '0'.toNat)) 0) with
            | some ch => some (ch, r)
            | none => none
        | _ => none
    | _ => none

/-- An attribute value between quotes `q`, entities decoded; a raw `<` or a
control character is a parse error. -/
def parseAttValue : Nat → Char → List Char → Option (List Char × List Char)
  | 0, _, _ => none
  | _ + 1, _, [] => none
  | f + 1, q, c :: t =>
    if c = q then some ([], t)
    else if c = '<' then none
    else if c = '&' then
      match xmlEntity t with
      | some (ch, r) =>
        match parseAttValue f q r with
        | some (s, r2) => some (ch :: s, r2)
        | none => none
      | none => none
    else if isXmlTextChar c then
      match parseAttValue f q t with
      | some (s, r2) => some (c :: s, r2)
      | none => none
    else none

/-- The attribute list of a start tag, ending at `>` (`false`) or `/>`
(`true`). -/
def parseAttrs : Nat → List Char → List (String × String) →
    Option (List (String × String) × Bool × List Char)
  | 0, _, _ => none
  | f + 1, cs, acc =>
    match cs.dropWhile isXmlWs with
    | '>' :: r => some (acc.reverse, false, r)
    | '/' :: '>' :: r => some (acc.reverse, true, r)
    | cs1 =>
      match parseXName cs1 with
      | some (an, r1) =>
        match r1.dropWhile isXmlWs with
        | '=' :: r2 =>
          match r2.dropWhile isXmlWs with
          | '"' :: r3 =>
            match parseAttValue f '"' r3 with
            | some (v, r4) => parseAttrs f r4 ((an, ⟨v⟩) :: acc)
            | none => none
          | '\'' :: r3 =>
            match parseAttValue f '\'' r3 with
            | some (v, r4) => parseAttrs f r4 ((an, ⟨v⟩) :: acc)
            | none => none
          | _ => none
        | _ => none
      | none => none

mutual

/-- One element, positioned at its `<`. -/
def parseElement : Nat → List Char → Option (XNode × List Char)
  | 0, _ => none
  | f + 1, cs =>
    match cs with
    | '<' :: t =>
      match parseXName t with
      | some (tag, r1) =>
        match parseAttrs f r1 [] with
        | some (attrs, true, r2) => some (.elem tag attrs [], r2)
        | some (attrs, false, r2) =>
          match parseXContent f r2 [] with
          | some (children, r3) =>
            match r3 with
            | '<' :: '/' :: r4 =>
              match parseXName r4 with
              | some (ctag, r5) =>
                if ctag = tag then
                  match r5.dropWhile isXmlWs with
                  | '>' :: r6 => some (.elem tag attrs children, r6)
                  | _ => none
                else none
              | none => none
            | _ => none
          | none => none
        | none => none
      | none => none
    | _ => none

/-- Element content: child elements, entity references and character-data
runs, stopping (successfully) at a `</`; end of input inside an element is a
parse error. -/
def parseXContent : Nat → List Char → List XNode → Option (List XNode × List Char)
  | 0, _, _ => none
  | f + 1, cs, acc =>
    match cs with
    | [] => none
    | '<' :: '/' :: r => some (acc.reverse, '<' :: '/' :: r)
    | '<' :: t =>
      match parseElement f ('<' :: t) with
      | some (child, r) => parseXContent f r (child :: acc)
      | none => none
    | '&' :: t =>
      match xmlEntity t with
      | some (ch, r) => parseXContent f r (.text ⟨[ch]⟩ :: acc)
      | none => none
    | c :: t =>
      if isXmlTextChar c then
        parseXContent f (t.dropWhile fun d => d ≠ '<' && d ≠ '&' && isXmlTextChar d)
          (.text ⟨c :: t.takeWhile fun d => d ≠ '<' && d ≠ '&' && isXmlTextChar d⟩ :: acc)
      else none

end

/-- A whole document: optional leading whitespace, one root element, optional
trailing whitespace; anything after the root is "junk after document
element". -/
def parseXmlRoot (fuel : Nat) (cs : List Char) : Option XNode :=
  match parseElement fuel (cs.dropWhile isXmlWs) with
  | some (root, rest) => if (rest.dropWhile isXmlWs).isEmpty then some root else none
  | none => none

/-- The exceptions of the fallible primitives used by
`parse_steps_from_tcm_field`. -/
inductive PyErr where
  | xmlParseError
deriving DecidableEq, Repr

/-- `ET.fromstring(s)`, raising `ParseError` on malformed input. -/
def ET_fromstring (s : String) : Except PyErr XNode :=
  match parseXmlRoot (4 * (s.length + 4)) s.data with
  | some root => .ok root
  | none => .error .xmlParseError

/-- `_try_parse` (src/main.py lines 199-203): the `try/except` around
`ET.fromstring`, returning `None` on any exception. -/
def tryParseXml (s : String) : Option XNode := (ET_fromstring s).toOption

mutual

/-- All proper descendants of a node, in document order (`elem.iter()` minus
the element itself, i.e. what `.//tag` searches). -/
def XNode.descendants : XNode → List XNode
  | .text _ => []
  | .elem _ _ ch => descendantsList ch

def descendantsList : List XNode → List XNode
  | [] => []
  | c :: cs => c :: (XNode.descendants c ++ descendantsList cs)

end

mutual

/-- `"".join(elem.itertext())`: depth-first concatenation of all character
data under a node. -/
def collectText : XNode → String
  | .text s => s
  | .elem _ _ ch => collectTextList ch

def collectTextList : List XNode → String
  | [] => ""
  | c :: cs => collectText c ++ collectTextList cs

end

/-- Element test with a given tag. -/
def isElemWithTag (tag : String) : XNode → Bool
  | .elem t _ _ => t = tag
  | .text _ => false

/-- `root.findall(".//tag")`: descendant elements with the tag, document
order. -/
def findallDesc (tag : String) (x : XNode) : List XNode :=
  (XNode.descendants x).filter (isElemWithTag tag)

/-- `step.findall("./tag")`: direct children with the tag. -/
def childElems (x : XNode) (tag : String) : List XNode :=
  match x with
  | .elem _ _ ch => ch.filter (isElemWithTag tag)
  | .text _ => []

/-! ## `_clean` (src/main.py lines 178-184) and its pieces -/

/-- One HTML entity at the head of the input, as
(replacement, characters consumed): the entities this field format meets,
with Python's semicolon-optional behaviour for the basic four and numeric
character references (invalid code points become U+FFFD).  CPython's full
`html5` table is far larger; the extra names are irrelevant here. -/
def htmlEntityAt (cs : List Char) : Option (List Char × Nat) :=
  if "amp;".data.isPrefixOf cs then some (['&'], 4)
  else if "lt;".data.isPrefixOf cs then some (['<'], 3)
  else if "gt;".data.isPrefixOf cs then some (['>'], 3)
  else if "quot;".data.isPrefixOf cs then some (['"'], 5)
  else if "apos;".data.isPrefixOf cs then some (['\''], 5)
  else if "nbsp;".data.isPrefixOf cs then some ([' '], 5)
  else if "amp".data.isPrefixOf cs then some (['&'], 3)
  else if "lt".data.isPrefixOf cs then some (['<'], 2)
  else if "gt".data.isPrefixOf cs then some (['>'], 2)
  else if "quot".data.isPrefixOf cs then some (['"'], 4)
  else
    match cs with
    | '#' :: c2 :: t =>
      if c2 = 'x' ∨ c2 = 'X' then
        let ds := t.takeWhile fun c => (hexVal c).isSome
        if ds.isEmpty then none
        else
          let n := ds.foldl (fun a c => a * 16 + (hexVal c).getD 0) 0
          let repl := if n.isValidChar ∧ n ≠ 0 then [Char.ofNat n] else ['�']
          match t.dropWhile fun c => (hexVal c).isSome with
          | ';' :: _ => some (repl, 2 + ds.length + 1)
          | _ => some (repl, 2 + ds.length)
      else
        let ds := (c2 :: t).takeWhile Char.isDigit
        if ds.isEmpty then none
        else
          let n := ds.foldl (fun a c => a * 10 + (c.toNat - '0'.toNat)) 0
          let repl := if n.isValidChar ∧ n ≠ 0 then [Char.ofNat n] else ['�']
          match (c2 :: t).dropWhile Char.isDigit with
          | ';' :: _ => some (repl, 1 + ds.length + 1)
          | _ => some (repl, 1 + ds.length)
    | _ => none

/-- The scan of `html.unescape`, with fuel (each step consumes at least one
character, so `length + 1` suffices). -/
def unescapeAux : Nat → List Char → List Char
  | 0, cs => cs
  | _ + 1, [] => []
  | f + 1, c :: rest =>
    if c = '&' then
      match htmlEntityAt rest with
      | some (repl, k) => repl ++ unescapeAux f (rest.drop k)
      | none => '&' :: unescapeAux f rest
    else c :: unescapeAux f rest

/-- `html.unescape(s)` / `_html.unescape`. -/
def htmlUnescape (s : String) : String := ⟨unescapeAux (s.length + 1) s.data⟩

/-- `re.sub(r"<[^>]+>", " ", x)`: the left-to-right non-overlapping scan; at
a `<` with no later `>` (or with `>` immediately next) there is no match and
the scanner moves on one character. -/
def tagStripAux : Nat → List Char → List Char
  | 0, cs => cs
  | _ + 1, [] => []
  | f + 1, c :: rest =>
    if c = '<' then
      match rest.dropWhile fun d => d ≠ '>' with
      | '>' :: r =>
        if (rest.takeWhile fun d => d ≠ '>').isEmpty then '<' :: tagStripAux f rest
        else ' ' :: tagStripAux f r
      | _ => '<' :: tagStripAux f rest
    else c :: tagStripAux f rest

/-- `re.sub(r"\s+", " ", x)`: collapse each whitespace run to one space. -/
def collapseWsAux : Nat → List Char → List Char
  | 0, cs => cs
  | _ + 1, [] => []
  | f + 1, c :: rest =>
    if isPyWs c then ' ' :: collapseWsAux f (rest.dropWhile isPyWs)
    else c :: collapseWsAux f rest

/-- `re.sub(r"\s+", " ", x).strip()`: the final two stages of `_clean`. -/
def normWs (l : List Char) : List Char :=
  pyStripList (collapseWsAux (l.length + 1) l)

/-- Proof-support predicate: every whitespace character of the list is a
plain space, and no two adjacent characters are both whitespace — the
normal form `collapseWsAux` produces. -/
def noWsRun : List Char → Bool
  | [] => true
  | [c] => !isPyWs c || c == ' '
  | c :: d :: rest =>
    (!isPyWs c || c == ' ') && !(isPyWs c && isPyWs d) && noWsRun (d :: rest)

/-- `_clean(x)` (src/main.py lines 178-184): unescape HTML entities, strip
tags to a single space, collapse whitespace, trim. -/
def _clean (x : String) : String :=
  let u := (htmlUnescape x).data
  ⟨normWs (tagStripAux (u.length + 1) u)⟩

/-! ## `_sanitize_for_xml` (src/main.py lines 186-197) -/

/-- The control-character class `[\x00-\x08\x0B\x0C\x0E-\x1F]`. -/
def isBadCtrl (c : Char) : Bool :=
  c.toNat ≤ 8 || c.toNat = 0x0b || c.toNat = 0x0c ||
  (0x0e ≤ c.toNat && c.toNat ≤ 0x1f)

/-- The negative lookahead of the sanitize regex: does one of the five legal
named entities (case-insensitively) or a numeric/hex character reference
follow the `&`? -/
def legalEntityAfterAmp (cs : List Char) : Bool :=
  let ls := cs.map asciiLower
  "lt;".data.isPrefixOf ls || "gt;".data.isPrefixOf ls ||
  "amp;".data.isPrefixOf ls || "apos;".data.isPrefixOf ls ||
  "quot;".data.isPrefixOf ls ||
  (match cs with
   | '#' :: c2 :: t =>
     if c2 = 'x' ∨ c2 = 'X' then
       decide ¬ (t.takeWhile fun c => (hexVal c).isSome).isEmpty &&
       (match t.dropWhile fun c => (hexVal c).isSome with
        | ';' :: _ => true
        | _ => false)
     else
       decide (c2.isDigit) &&
       (match (c2 :: t).dropWhile Char.isDigit with
        | ';' :: _ => true
        | _ => false)
   | _ => false)

/-- The `re.sub` escaping every bare `&` to `&amp;` (the match is just the
`&`; the looked-ahead text stays in place). -/
def escapeAmpsAux : Nat → List Char → List Char
  | 0, cs => cs
  | _ + 1, [] => []
  | f + 1, '&' :: rest =>
    if legalEntityAfterAmp rest then '&' :: escapeAmpsAux f rest
    else '&' :: 'a' :: 'm' :: 'p' :: ';' :: escapeAmpsAux f rest
  | f + 1, c :: rest => c :: escapeAmpsAux f rest

/-- `_sanitize_for_xml(s)` (src/main.py lines 186-197): drop illegal control
characters, then escape bare ampersands. -/
def _sanitize_for_xml (s : String) : String :=
  let kept := s.data.filter fun c => ¬ isBadCtrl c
  ⟨escapeAmpsAux (kept.length + 1) kept⟩

/-! ## The `<steps ...>` region regex (src/main.py line 213) -/

/-- A case-folded occurrence of `<steps` with a `\b` word boundary after it. -/
def isOpenTagAt (ls : List Char) (i : Nat) : Bool :=
  "<steps".data.isPrefixOf (ls.drop i) &&
  (match ls[i + 6]? with
   | some c => ¬ (c.isAlphanum || c = '_')
   | none => true)

/-- A case-folded occurrence of `</steps>`. -/
def isCloseTagAt (ls : List Char) (i : Nat) : Bool :=
  "</steps>".data.isPrefixOf (ls.drop i)

/-- `re.search(r"(<steps\b.*?</steps>)", unescaped, DOTALL | IGNORECASE)`:
the leftmost viable start wins, and the lazy `.*?` stops at the first
`</steps>` after it.  The group is taken from the original (uncased) text. -/
def reFindStepsRegion (s : String) : Option String :=
  let cs := s.data
  let ls := cs.map asciiLower
  match findFirst
      (fun i => isOpenTagAt ls i &&
        (findFirst (fun c => isCloseTagAt ls c) (i + 6) ls.length).isSome)
      0 ls.length with
  | none => none
  | some i =>
    match findFirst (fun c => isCloseTagAt ls c) (i + 6) ls.length with
    | some c => some ⟨slice cs i (c + 8)⟩
    | none => none

/-- Modelled from the regex's actual (lazy) semantics in arithmetic form, for
the refinement proof: the first opening tag of the text, then the first
closing tag after it. -/
def specXmlLazyRegion (s : String) : Option String :=
  let cs := s.data
  let ls := cs.map asciiLower
  match findFirst (fun i => isOpenTagAt ls i) 0 ls.length with
  | none => none
  | some i =>
    match findFirst (fun c => isCloseTagAt ls c) (i + 6) ls.length with
    | some c => some ⟨slice cs i (c + 8)⟩
    | none => none

/-- Modelled from the spec's words ("first opening marker to the last closing
marker"), for comparison: first opening tag to the LAST closing tag. -/
def specXmlFirstToLastRegion (s : String) : Option String :=
  let cs := s.data
  let ls := cs.map asciiLower
  match findFirst (fun i => isOpenTagAt ls i) 0 ls.length,
        findLast (fun c => isCloseTagAt ls c) ls.length with
  | some i, some c => if i + 6 ≤ c then some ⟨slice cs i (c + 8)⟩ else none
  | _, _ => none

/-! ## `parse_steps_from_tcm_field` (src/main.py lines 161-240) -/

/-- One `{action, expected}` record produced by the steps parser. -/
structure StepRecord where
  action : String
  expected : String
deriving DecidableEq, Repr

/-- The extraction loop (lines 221-240): every `step` descendant of the
root; its first two `parameterizedString` children are the action and
expected carriers (`""` when absent); both cleaned; a record is emitted
unless both clean to empty. -/
def extractSteps (root : XNode) : List StepRecord :=
  (findallDesc "step" root).filterMap fun step =>
    let ps := childElems step "parameterizedString"
    let action := _clean (match ps[0]? with | some e => collectText e | none => "")
    let expected := _clean (match ps[1]? with | some e => collectText e | none => "")
    if action ≠ "" ∨ expected ≠ "" then some ⟨action, expected⟩ else none

/-- `parse_steps_from_tcm_field(steps_field_value)` (src/main.py lines
161-240).  `none` models Python `None` (the `if not steps_field_value`
guard covers both).  The `Except` layer records that the one fallible
primitive, `ET.fromstring`, is only ever called through `_try_parse`'s
`try/except`; strategy B runs when strategy A failed OR the stripped raw
text contains `&lt;steps` case-insensitively, and its result replaces
strategy A's. -/
def parse_steps_from_tcm_field (steps_field_value : Option String) :
    Except PyErr (List StepRecord) :=
  match steps_field_value with
  | none => .ok []
  | some sv =>
    if sv = "" then .ok []
    else
      let raw := pythonStrip sv
      let rootA := tryParseXml raw
      let root :=
        if rootA.isNone || listHasInfix "&lt;steps".data (toLowerStr raw).data then
          let unescaped := htmlUnescape raw
          let xml_blob :=
            match reFindStepsRegion unescaped with
            | some b => b
            | none => unescaped
          tryParseXml (_sanitize_for_xml xml_blob)
        else rootA
      match root with
      | none => .ok []
      | some r => .ok (extractSteps r)

/-- A concrete input that parses directly as XML in strategy A yet contains
the literal substring `&lt;steps` (as text content), which forces strategy B
to rerun. -/
def C8badInput : String :=
  "<steps><step><parameterizedString>&lt;steps</parameterizedString></step></steps>"

/-- The tree strategy A produces for `C8badInput` (the entity becomes its
own text node). -/
def C8badRoot : XNode :=
  .elem "steps" []
    [.elem "step" [] [.elem "parameterizedString" [] [.text "<", .text "steps"]]]

/-! ## `ensure_step_defaults` (src/main.py lines 80-105) -/

/-- `f"S{i:03d}"`: the synthesized step id. -/
def synthId (i : Nat) : String :=
  let d := toString i
  "S" ++ (if d.length < 3 then ⟨List.replicate (3 - d.length) '0'⟩ else "") ++ d

/-- `"keyword" not in st or st["keyword"] is None` (and the same test for
`"params"`). -/
def isMissingOrNull : Option Json → Bool
  | none => true
  | some .null => true
  | some _ => false

/-- `if not st.get("id"): st["id"] = f"S{i:03d}"`. -/
def fixId (i : Nat) (m : List (String × Json)) : List (String × Json) :=
  if pyTruthy ((objGet m "id").getD .null) then m
  else objSet m "id" (.str (synthId i))

/-- `if "keyword" not in st or st["keyword"] is None: st["keyword"] = ""`. -/
def fixKeyword (m : List (String × Json)) : List (String × Json) :=
  if isMissingOrNull (objGet m "keyword") then objSet m "keyword" (.str "") else m

/-- `if "params" not in st or st["params"] is None: st["params"] = []`
`elif not isinstance(st["params"], list): st["params"] = [st["params"]]`. -/
def fixParams (m : List (String × Json)) : List (String × Json) :=
  match objGet m "params" with
  | none => objSet m "params" (.arr [])
  | some .null => objSet m "params" (.arr [])
  | some (.arr _) => m
  | some v => objSet m "params" (.arr [v])

/-- The loop body of `ensure_step_defaults` for one step `st` at 1-based
position `i`: the three sequential fix-ups above.  Non-dict steps are left
untouched (`if not isinstance(st, dict): continue`). -/
def stepDefault (i : Nat) (st : Json) : Json :=
  match st with
  | .obj m => .obj (fixParams (fixKeyword (fixId i m)))
  | _ => st

/-- `for i, st in enumerate(steps, start=1): ...` applied functionally. -/
def mapIdxFrom (i : Nat) : List Json → List Json
  | [] => []
  | st :: t => stepDefault i st :: mapIdxFrom (i + 1) t

/-- `ensure_step_defaults(payload)` (src/main.py lines 80-105), as a pure
function on the payload dict: a no-op when `automated_steps` is absent or not
a list, otherwise the in-place step repair above. -/
def ensure_step_defaults (payload : List (String × Json)) : List (String × Json) :=
  match objGet payload "automated_steps" with
  | some (.arr steps) => objSet payload "automated_steps" (.arr (mapIdxFrom 1 steps))
  | _ => payload

/-! ## `validate_payload` (src/main.py lines 108-125, keys from config.py) -/

/-- `config.REQUIRED_TOP_LEVEL_KEYS` (src/config.py lines 49-58). -/
def REQUIRED_TOP_LEVEL_KEYS : List String :=
  ["name", "description", "preconditions", "tags", "automated_steps",
   "artifacts", "references", "diagnostics"]

/-- `config.REQUIRED_STEP_KEYS` (src/config.py line 60). -/
def REQUIRED_STEP_KEYS : List String := ["id", "keyword", "params"]

/-- The `ValueError`s `validate_payload` can raise, by raise site. -/
inductive ValidationError where
  | missingTopLevelKeys (ks : List String)
  | missingStepsList
  | stepNotObject (i : Nat)
  | stepMissingKey (i : Nat) (k : String)
  | paramsNotList (i : Nat)
deriving DecidableEq, Repr

/-- `isinstance(st.get("params"), list)`. -/
def isArrOpt : Option Json → Bool
  | some (.arr _) => true
  | _ => false

/-- The `for i, st in enumerate(steps)` loop of `validate_payload`: each step
must be a dict containing every required step key, with list-typed params. -/
def validateSteps : List Json → Nat → Except ValidationError Unit
  | [], _ => .ok ()
  | st :: t, i =>
    match st with
    | .obj m =>
      match REQUIRED_STEP_KEYS.find? (fun k => (objGet m k).isNone) with
      | some k => .error (.stepMissingKey i k)
      | none =>
        if isArrOpt (objGet m "params") then validateSteps t (i + 1)
        else .error (.paramsNotList i)
    | _ => .error (.stepNotObject i)

/-- `validate_payload(payload)` (src/main.py lines 108-125): all required
top-level keys present (reported together), `automated_steps` a non-empty
list, every step well shaped. -/
def validate_payload (payload : List (String × Json)) : Except ValidationError Unit :=
  let missing := REQUIRED_TOP_LEVEL_KEYS.filter (fun k => (objGet payload k).isNone)
  if missing.isEmpty then
    match objGet payload "automated_steps" with
    | some (.arr steps) =>
      if steps.isEmpty then .error .missingStepsList else validateSteps steps 0
    | _ => .error .missingStepsList
  else .error (.missingTopLevelKeys missing)

/-- A sample payload with all required keys and one minimal step, used to
instantiate hypothesised theorems at a concrete input. -/
def samplePayload : List (String × Json) :=
  [("name", .str "n"), ("description", .str "d"), ("preconditions", .null),
   ("tags", .arr []), ("automated_steps", .arr [.obj [("keyword", .str "tap")]]),
   ("artifacts", .null), ("references", .obj [("meta", .str "m")]),
   ("diagnostics", .null)]

/-! ## The `references.steps` merge (src/main.py lines 332-338, inside
`run_conversion`) -/

/-- The merge block of `run_conversion`:
`refs = payload.get("references"); if not isinstance(refs, dict): refs = {};`
`refs["steps"] = list(azure_steps); payload["references"] = refs`. -/
def merge_references (payload : List (String × Json)) (azure_steps : List Json) :
    List (String × Json) :=
  let refs := match objGet payload "references" with
              | some (.obj m) => m
              | _ => []
  objSet payload "references" (.obj (objSet refs "steps" (.arr azure_steps)))

/-- Lookup of a sub-key of the `references` mapping of a payload (`none` when
`references` is absent or not a dict). -/
def refLookup (payload : List (String × Json)) (k : String) : Option Json :=
  match objGet payload "references" with
  | some (.obj m) => objGet m k
  | _ => none

/-! ## `compile_nl_tc_from_azure` (src/main.py lines 243-281): the part that
turns the parsed step records into `azure_steps_structured` and the `tc_nl`
prompt string.  The Azure metadata dict (network data) is not modelled. -/

/-- The `for s in steps` loop of `compile_nl_tc_from_azure`: strip both
fields, drop records with both blank, collect the structured records and the
non-blank action lines. -/
def compileAux : List StepRecord → List StepRecord × List String
  | [] => ([], [])
  | s :: t =>
    let a := pythonStrip s.action
    let e := pythonStrip s.expected
    let rest := compileAux t
    if a = "" ∧ e = "" then rest
    else (⟨a, e⟩ :: rest.1, if a = "" then rest.2 else a :: rest.2)

/-- `compile_nl_tc_from_azure`, restricted to its computation from the parsed
steps: returns `(tc_nl, azure_steps_structured)` where
`tc_nl = "".join([ln for ln in lines if ln]).strip()` (line 272). -/
def compile_nl_tc_from_azure (steps : List StepRecord) : String × List StepRecord :=
  let (structured, lines) := compileAux steps
  (pythonStrip (String.join (lines.filter (fun l => ¬ l.isEmpty))), structured)

/-! # Theorems

Helper lemmas first, then one theorem per claim (with witnesses and
counterexamples where the claim's status calls for them). -/

/-! ## Dict lemmas -/

theorem objGet_objSet_self (m : List (String × Json)) (k : String) (v : Json) :
    objGet (objSet m k v) k = some v := by
  induction m with
  | nil => simp [objSet, objGet]
  | cons hd t ih =>
    obtain ⟨k', v'⟩ := hd
    by_cases hk : k' = k
    · subst hk; simp [objSet, objGet]
    · simp [objSet, objGet, hk, ih]

theorem objGet_objSet_ne (m : List (String × Json)) (k k' : String) (v : Json)
    (h : k' ≠ k) : objGet (objSet m k v) k' = objGet m k' := by
  have h' : ¬ (k = k') := fun hh => h hh.symm
  induction m with
  | nil => simp [objSet, objGet, h']
  | cons hd t ih =>
    obtain ⟨k₀, v₀⟩ := hd
    by_cases hk : k₀ = k
    · simp [objSet, objGet, hk, h']
    · simp [objSet, objGet, hk, ih]

theorem objSet_objSet_self (m : List (String × Json)) (k : String) (v w : Json) :
    objSet (objSet m k v) k w = objSet m k w := by
  induction m with
  | nil => simp [objSet]
  | cons hd t ih =>
    obtain ⟨k₀, v₀⟩ := hd
    by_cases hk : k₀ = k
    · subst hk; simp [objSet]
    · simp [objSet, hk, ih]

/-! ## Repair (`ensure_step_defaults`) lemmas -/

theorem synthId_data_ne_nil (i : Nat) : (synthId i).data ≠ [] := by
  simp only [synthId]
  by_cases h : (toString i).length < 3 <;>
    simp [h, String.data_append, String.instAppend, String.append]

theorem pyTruthy_synthId (i : Nat) : pyTruthy (.str (synthId i)) = true := by
  simp [pyTruthy, List.isEmpty_iff, synthId_data_ne_nil i]

theorem fixId_id_truthy (i : Nat) (m : List (String × Json)) :
    pyTruthy ((objGet (fixId i m) "id").getD .null) = true := by
  unfold fixId
  by_cases h : pyTruthy ((objGet m "id").getD .null)
  · rw [if_pos h]; exact h
  · rw [if_neg h]; simp [objGet_objSet_self, pyTruthy_synthId]

theorem fixId_preserves (i : Nat) (m : List (String × Json)) (k : String)
    (h : k ≠ "id") : objGet (fixId i m) k = objGet m k := by
  unfold fixId
  by_cases ht : pyTruthy ((objGet m "id").getD .null) <;>
    simp [ht, objGet_objSet_ne _ _ _ _ h]

theorem isMissingOrNull_false_iff (o : Option Json) :
    isMissingOrNull o = false ↔ ∃ v, o = some v ∧ v ≠ .null := by
  cases o with
  | none => simp [isMissingOrNull]
  | some v => cases v <;> simp [isMissingOrNull]

theorem fixKeyword_keyword (m : List (String × Json)) :
    ∃ v, objGet (fixKeyword m) "keyword" = some v ∧ v ≠ .null := by
  unfold fixKeyword
  by_cases h : isMissingOrNull (objGet m "keyword")
  · exact ⟨.str "", by simp [h, objGet_objSet_self]⟩
  · rw [if_neg h]
    exact (isMissingOrNull_false_iff _).mp (by simpa using h)

theorem fixKeyword_preserves (m : List (String × Json)) (k : String)
    (h : k ≠ "keyword") : objGet (fixKeyword m) k = objGet m k := by
  unfold fixKeyword
  by_cases hm : isMissingOrNull (objGet m "keyword") <;>
    simp [hm, objGet_objSet_ne _ _ _ _ h]

theorem fixParams_params (m : List (String × Json)) :
    ∃ xs, objGet (fixParams m) "params" = some (.arr xs) := by
  unfold fixParams
  cases h : objGet m "params" with
  | none => exact ⟨[], by simp [objGet_objSet_self]⟩
  | some v =>
    cases v with
    | null => exact ⟨[], by simp [objGet_objSet_self]⟩
    | bool b => exact ⟨[.bool b], by simp [objGet_objSet_self]⟩
    | num lit => exact ⟨[.num lit], by simp [objGet_objSet_self]⟩
    | str s => exact ⟨[.str s], by simp [objGet_objSet_self]⟩
    | arr xs => exact ⟨xs, by simpa using h⟩
    | obj mm => exact ⟨[.obj mm], by simp [objGet_objSet_self]⟩

theorem fixParams_preserves (m : List (String × Json)) (k : String)
    (h : k ≠ "params") : objGet (fixParams m) k = objGet m k := by
  unfold fixParams
  cases hp : objGet m "params" with
  | none => simp [objGet_objSet_ne _ _ _ _ h]
  | some v => cases v <;> simp [objGet_objSet_ne _ _ _ _ h]

/-- The three invariants the loop body establishes on a dict step. -/
theorem stepDefault_obj_props (i : Nat) (m : List (String × Json)) :
    pyTruthy ((objGet (fixParams (fixKeyword (fixId i m))) "id").getD .null) = true ∧
    (∃ v, objGet (fixParams (fixKeyword (fixId i m))) "keyword" = some v ∧ v ≠ .null) ∧
    ∃ xs, objGet (fixParams (fixKeyword (fixId i m))) "params" = some (.arr xs) := by
  refine ⟨?_, ?_, fixParams_params _⟩
  · rw [fixParams_preserves _ _ (by decide), fixKeyword_preserves _ _ (by decide)]
    exact fixId_id_truthy i m
  · obtain ⟨v, hv, hvn⟩ := fixKeyword_keyword (fixId i m)
    exact ⟨v, by rw [fixParams_preserves _ _ (by decide)]; exact hv, hvn⟩

theorem fixId_of_truthy (i : Nat) (m : List (String × Json))
    (h : pyTruthy ((objGet m "id").getD .null) = true) : fixId i m = m := by
  simp [fixId, h]

theorem fixKeyword_of_present (m : List (String × Json)) (v : Json)
    (hv : objGet m "keyword" = some v) (hn : v ≠ .null) : fixKeyword m = m := by
  have : isMissingOrNull (objGet m "keyword") = false :=
    (isMissingOrNull_false_iff _).mpr ⟨v, hv, hn⟩
  simp [fixKeyword, this]

theorem fixParams_of_arr (m : List (String × Json)) (xs : List Json)
    (h : objGet m "params" = some (.arr xs)) : fixParams m = m := by
  simp [fixParams, h]

theorem stepDefault_idem (i : Nat) (st : Json) :
    stepDefault i (stepDefault i st) = stepDefault i st := by
  cases st with
  | obj m =>
    obtain ⟨hid, ⟨v, hv, hvn⟩, xs, hxs⟩ := stepDefault_obj_props i m
    simp only [stepDefault]
    rw [fixId_of_truthy _ _ hid, fixKeyword_of_present _ _ hv hvn,
      fixParams_of_arr _ _ hxs]
  | null => rfl
  | bool b => rfl
  | num lit => rfl
  | str s => rfl
  | arr xs => rfl

theorem mapIdxFrom_idem (i : Nat) (l : List Json) :
    mapIdxFrom i (mapIdxFrom i l) = mapIdxFrom i l := by
  induction l generalizing i with
  | nil => rfl
  | cons st t ih => simp [mapIdxFrom, stepDefault_idem, ih]

theorem mem_mapIdxFrom (i : Nat) (l : List Json) (st' : Json)
    (h : st' ∈ mapIdxFrom i l) : ∃ j st, st' = stepDefault j st := by
  induction l generalizing i with
  | nil => cases h
  | cons st t ih =>
    simp only [mapIdxFrom] at h
    rcases List.mem_cons.mp h with h' | h'
    · exact ⟨i, st, h'⟩
    · exact ih (i + 1) h' 

/-- C6: repair applied twice equals repair applied once. -/
theorem C6_repair_idempotent (payload : List (String × Json)) :
    ensure_step_defaults (ensure_step_defaults payload) = ensure_step_defaults payload := by
  cases h : objGet payload "automated_steps" with
  | none =>
    have h1 : ensure_step_defaults payload = payload := by simp [ensure_step_defaults, h]
    rw [h1]; exact h1
  | some v =>
    cases v with
    | arr steps =>
      have h1 : ensure_step_defaults payload
          = objSet payload "automated_steps" (.arr (mapIdxFrom 1 steps)) := by
        simp [ensure_step_defaults, h]
      rw [h1]
      have h2 := objGet_objSet_self payload "automated_steps" (.arr (mapIdxFrom 1 steps))
      simp [ensure_step_defaults, h2, mapIdxFrom_idem, objSet_objSet_self]
    | null =>
      have h1 : ensure_step_defaults payload = payload := by simp [ensure_step_defaults, h]
      rw [h1]; exact h1
    | bool b =>
      have h1 : ensure_step_defaults payload = payload := by simp [ensure_step_defaults, h]
      rw [h1]; exact h1
    | num lit =>
      have h1 : ensure_step_defaults payload = payload := by simp [ensure_step_defaults, h]
      rw [h1]; exact h1
    | str s =>
      have h1 : ensure_step_defaults payload = payload := by simp [ensure_step_defaults, h]
      rw [h1]; exact h1
    | obj m =>
      have h1 : ensure_step_defaults payload = payload := by simp [ensure_step_defaults, h]
      rw [h1]; exact h1

/-! ## Validation inversion lemmas -/

theorem validateSteps_ok_inv :
    ∀ (l : List Json) (i : Nat), validateSteps l i = .ok () →
      ∀ st ∈ l, ∃ m, st = Json.obj m ∧
        (∀ k ∈ REQUIRED_STEP_KEYS, (objGet m k).isSome) ∧
        isArrOpt (objGet m "params") = true := by
  intro l
  induction l with
  | nil => intro i _ st hst; cases hst
  | cons st0 t ih =>
    intro i h st hst
    cases st0 with
    | obj m =>
      simp only [validateSteps] at h
      cases hf : REQUIRED_STEP_KEYS.find? (fun k => (objGet m k).isNone) with
      | some k => rw [hf] at h; simp at h
      | none =>
        rw [hf] at h
        by_cases hp : isArrOpt (objGet m "params")
        · rw [if_pos hp] at h
          rcases List.mem_cons.mp hst with he | ht
          · refine ⟨m, he, ?_, hp⟩
            intro k hk
            have hnk := List.find?_eq_none.mp hf k hk
            cases ho : objGet m k with
            | none => rw [ho] at hnk; simp at hnk
            | some v => rfl
          · exact ih (i + 1) h st ht
        · rw [if_neg hp] at h; simp at h
    | null => simp [validateSteps] at h
    | bool b => simp [validateSteps] at h
    | num lit => simp [validateSteps] at h
    | str s => simp [validateSteps] at h
    | arr xs => simp [validateSteps] at h

theorem validate_ok_inv (p : List (String × Json))
    (h : validate_payload p = .ok ()) :
    (∀ k ∈ REQUIRED_TOP_LEVEL_KEYS, (objGet p k).isSome) ∧
    ∃ steps, objGet p "automated_steps" = some (.arr steps) ∧ steps ≠ [] ∧
      validateSteps steps 0 = .ok () := by
  unfold validate_payload at h
  by_cases hm : (REQUIRED_TOP_LEVEL_KEYS.filter (fun k => (objGet p k).isNone)).isEmpty
  · rw [if_pos hm] at h
    have hnil : REQUIRED_TOP_LEVEL_KEYS.filter (fun k => (objGet p k).isNone) = [] :=
      List.isEmpty_iff.mp hm
    refine ⟨?_, ?_⟩
    · intro k hk
      have hnk := List.filter_eq_nil_iff.mp hnil k hk
      cases ho : objGet p k with
      | none => rw [ho] at hnk; simp at hnk
      | some v => rfl
    · cases hs : objGet p "automated_steps" with
      | none => rw [hs] at h; simp at h
      | some v =>
        cases v with
        | arr steps =>
          rw [hs] at h
          have h' : (if steps.isEmpty = true then
                Except.error ValidationError.missingStepsList
              else validateSteps steps 0) = .ok () := h
          by_cases he : steps.isEmpty
          · rw [if_pos he] at h'; simp at h'
          · rw [if_neg he] at h'
            exact ⟨steps, rfl, fun hh => he (by simp [hh]), h'⟩
        | null => rw [hs] at h; simp at h
        | bool b => rw [hs] at h; simp at h
        | num lit => rw [hs] at h; simp at h
        | str s => rw [hs] at h; simp at h
        | obj m => rw [hs] at h; simp at h
  · rw [if_neg hm] at h; simp at h

/-- The steps list of a repaired payload is the index-mapped repair of the
original list whenever the repaired payload holds a list at all. -/
theorem ensure_steps_shape (payload : List (String × Json)) (steps : List Json)
    (h : objGet (ensure_step_defaults payload) "automated_steps" = some (.arr steps)) :
    ∃ l0, objGet payload "automated_steps" = some (.arr l0) ∧ steps = mapIdxFrom 1 l0 := by
  cases h0 : objGet payload "automated_steps" with
  | none =>
    have h1 : ensure_step_defaults payload = payload := by simp [ensure_step_defaults, h0]
    rw [h1, h0] at h; cases h
  | some v =>
    cases v with
    | arr l0 =>
      have h1 : ensure_step_defaults payload
          = objSet payload "automated_steps" (.arr (mapIdxFrom 1 l0)) := by
        simp [ensure_step_defaults, h0]
      rw [h1, objGet_objSet_self] at h
      injection h with h
      injection h with h
      exact ⟨l0, rfl, h.symm⟩
    | null =>
      have h1 : ensure_step_defaults payload = payload := by simp [ensure_step_defaults, h0]
      rw [h1, h0] at h; simp at h
    | bool b =>
      have h1 : ensure_step_defaults payload = payload := by simp [ensure_step_defaults, h0]
      rw [h1, h0] at h; simp at h
    | num lit =>
      have h1 : ensure_step_defaults payload = payload := by simp [ensure_step_defaults, h0]
      rw [h1, h0] at h; simp at h
    | str s =>
      have h1 : ensure_step_defaults payload = payload := by simp [ensure_step_defaults, h0]
      rw [h1, h0] at h; simp at h
    | obj m =>
      have h1 : ensure_step_defaults payload = payload := by simp [ensure_step_defaults, h0]
      rw [h1, h0] at h; simp at h

/-- C3 (amended): for every input object on which validation succeeds after
repair, the repaired object contains every required top-level key, its
`automated_steps` list is non-empty, and every entry is a mapping with a
truthy id, a non-null keyword and list-typed params. -/
theorem C3_repair_validated_invariants (payload : List (String × Json))
    (h : validate_payload (ensure_step_defaults payload) = .ok ()) :
    (∀ k ∈ REQUIRED_TOP_LEVEL_KEYS, (objGet (ensure_step_defaults payload) k).isSome) ∧
    ∃ steps,
      objGet (ensure_step_defaults payload) "automated_steps" = some (.arr steps) ∧
      steps ≠ [] ∧
      ∀ st ∈ steps, ∃ m, st = Json.obj m ∧
        pyTruthy ((objGet m "id").getD .null) = true ∧
        (∃ v, objGet m "keyword" = some v ∧ v ≠ .null) ∧
        ∃ xs, objGet m "params" = some (.arr xs) := by
  obtain ⟨hkeys, steps, hsteps, hne, hval⟩ := validate_ok_inv _ h
  refine ⟨hkeys, steps, hsteps, hne, ?_⟩
  intro st hst
  obtain ⟨l0, h0, hsm⟩ := ensure_steps_shape payload steps hsteps
  subst hsm
  obtain ⟨j, st0, hst0⟩ := mem_mapIdxFrom _ _ _ hst
  obtain ⟨m, hm, _, _⟩ := validateSteps_ok_inv _ _ hval st hst
  cases st0 with
  | obj m0 =>
    obtain ⟨hid, hkw, hxs⟩ := stepDefault_obj_props j m0
    simp only [stepDefault] at hst0
    refine ⟨fixParams (fixKeyword (fixId j m0)), hst0, hid, hkw, hxs⟩
  | null => rw [hm] at hst0; simp [stepDefault] at hst0
  | bool b => rw [hm] at hst0; simp [stepDefault] at hst0
  | num lit => rw [hm] at hst0; simp [stepDefault] at hst0
  | str s => rw [hm] at hst0; simp [stepDefault] at hst0
  | arr xs => rw [hm] at hst0; simp [stepDefault] at hst0

/-- C3 counterexample: on the empty object, the repair operation adds no
required top-level keys at all — the claim as stated ("for every input
object, after repair the object contains every required top-level key...")
fails at the input `{}`. -/
theorem C3_counterexample :
    "name" ∈ REQUIRED_TOP_LEVEL_KEYS ∧
    objGet (ensure_step_defaults ([] : List (String × Json))) "name" = none := by
  exact ⟨by simp [REQUIRED_TOP_LEVEL_KEYS], rfl⟩

/-- C3 witness: the amended theorem applied to a concrete payload that
passes validation after repair. -/
theorem C3_witness :
    (∀ k ∈ REQUIRED_TOP_LEVEL_KEYS, (objGet (ensure_step_defaults samplePayload) k).isSome) ∧
    ∃ steps,
      objGet (ensure_step_defaults samplePayload) "automated_steps" = some (.arr steps) ∧
      steps ≠ [] ∧
      ∀ st ∈ steps, ∃ m, st = Json.obj m ∧
        pyTruthy ((objGet m "id").getD .null) = true ∧
        (∃ v, objGet m "keyword" = some v ∧ v ≠ .null) ∧
        ∃ xs, objGet m "params" = some (.arr xs) :=
  C3_repair_validated_invariants samplePayload (by rfl)

/-! ## C4: the `references.steps` merge frame property -/

/-- C4: the merge changes only the `steps` sub-key of `references`: every
other sub-key keeps its value, `steps` is set to the supplied list, and
every other top-level key of the payload is untouched. -/
theorem C4_merge_frame (payload : List (String × Json)) (azure_steps : List Json)
    (k : String) (hk : k ≠ "steps") :
    refLookup (merge_references payload azure_steps) k = refLookup payload k ∧
    refLookup (merge_references payload azure_steps) "steps" = some (.arr azure_steps) ∧
    ∀ k', k' ≠ "references" →
      objGet (merge_references payload azure_steps) k' = objGet payload k' := by
  have hsk : ¬ ("steps" = k) := fun hh => hk hh.symm
  refine ⟨?_, ?_, ?_⟩
  · unfold merge_references refLookup
    cases h : objGet payload "references" with
    | none => simp [h, objGet_objSet_self, objGet_objSet_ne _ _ _ _ hk, hsk, objGet]
    | some v =>
      cases v <;>
        simp [h, objGet_objSet_self, objGet_objSet_ne _ _ _ _ hk, hsk, objGet]
  · unfold merge_references refLookup
    cases h : objGet payload "references" with
    | none => simp [h, objGet_objSet_self]
    | some v => cases v <;> simp [h, objGet_objSet_self]
  · intro k' hk'
    unfold merge_references
    exact objGet_objSet_ne _ _ _ _ hk'

/-- C4 witness: the frame property at a concrete payload, sibling key and
steps list. -/
theorem C4_merge_frame_witness :
    refLookup (merge_references [("references", Json.obj [("meta", Json.str "m")])]
        [Json.obj [("action", Json.str "a")]]) "meta"
      = refLookup [("references", Json.obj [("meta", Json.str "m")])] "meta" ∧
    refLookup (merge_references [("references", Json.obj [("meta", Json.str "m")])]
        [Json.obj [("action", Json.str "a")]]) "steps"
      = some (.arr [Json.obj [("action", Json.str "a")]]) :=
  ⟨(C4_merge_frame _ _ "meta" (by decide)).1,
   (C4_merge_frame _ _ "meta" (by decide)).2.1⟩

/-! ## C7: the prompt-line construction -/

/-- C7 (code bug): `tc_nl` is built with `"".join(...)` (line 272), so the
non-blank actions are concatenated with NO separator — not one per line as
the spec and the code's own comment (line 252) state.  At the two-step
input below the code produces `"Open AppLogin"`, a single line. -/
theorem C7_tc_nl_concatenates_actions :
    (compile_nl_tc_from_azure [⟨"Open App", ""⟩, ⟨"Login", ""⟩]).1 = "Open AppLogin" ∧
    (compile_nl_tc_from_azure [⟨"Open App", ""⟩, ⟨"Login", ""⟩]).1 ≠ "Open App\nLogin" := by
  exact ⟨rfl, by decide⟩

/-! ## C1: totality of the steps parser -/

/-- C1: the steps parser never raises — the only fallible primitive,
`ET.fromstring`, is always called through `_try_parse`'s `try/except`, so
every input yields an `ok` result — and empty or null input yields the
empty sequence. -/
theorem C1_parse_never_raises :
    (∀ o : Option String, ∃ l, parse_steps_from_tcm_field o = .ok l) ∧
    parse_steps_from_tcm_field none = .ok [] ∧
    parse_steps_from_tcm_field (some "") = .ok [] := by
  refine ⟨?_, rfl, rfl⟩
  intro o
  cases o with
  | none => exact ⟨[], rfl⟩
  | some sv =>
    by_cases hsv : sv = ""
    · subst hsv; exact ⟨[], rfl⟩
    · simp only [parse_steps_from_tcm_field, hsv, if_false]
      split
      · exact ⟨[], rfl⟩
      · exact ⟨_, rfl⟩

/-! ## C8: the fallback chain and the first parse -/

/-- C8 (amended): when the stripped raw text parses directly as well-formed
markup in step 1 AND does not contain the substring `&lt;steps`
case-insensitively, the returned records are derived from that first parse.
(Without the second condition stage 2 reruns and replaces the result — see
the counterexample.) -/
theorem C8_first_parse_kept (sv : String) (root : XNode)
    (hA : tryParseXml (pythonStrip sv) = some root)
    (hH : listHasInfix "&lt;steps".data (toLowerStr (pythonStrip sv)).data = false) :
    parse_steps_from_tcm_field (some sv) = .ok (extractSteps root) := by
  have hsv : sv ≠ "" := by
    intro h
    rw [h, show tryParseXml (pythonStrip "") = none from rfl] at hA
    exact Option.noConfusion hA
  simp only [parse_steps_from_tcm_field, hsv, if_false]
  simp [hA, hH]

/-- C8 witness: a plain well-formed input is handled entirely by the first
parse. -/
theorem C8_first_parse_kept_witness :
    parse_steps_from_tcm_field
        (some "<steps><step><parameterizedString>Open App</parameterizedString></step></steps>")
      = .ok (extractSteps
        (.elem "steps" []
          [.elem "step" [] [.elem "parameterizedString" [] [.text "Open App"]]])) :=
  C8_first_parse_kept _ _ (by rfl) (by rfl)

/-- C8 counterexample: `C8badInput` parses directly in step 1 (and that
parse yields one record), but because the raw text contains `&lt;steps`,
stage 2 reruns, its sanitized candidate fails to parse, and the function
returns the empty list — the first structural success is discarded. -/
theorem C8_counterexample :
    tryParseXml (pythonStrip C8badInput) = some C8badRoot ∧
    extractSteps C8badRoot = [⟨"<steps", ""⟩] ∧
    parse_steps_from_tcm_field (some C8badInput) = .ok [] ∧
    parse_steps_from_tcm_field (some C8badInput) ≠ .ok (extractSteps C8badRoot) := by
  refine ⟨rfl, rfl, rfl, ?_⟩
  intro h
  rw [show parse_steps_from_tcm_field (some C8badInput) = .ok [] from rfl,
    show extractSteps C8badRoot = [⟨"<steps", ""⟩] from rfl] at h
  injection h with h2
  exact List.noConfusion h2

/-! ## C5: the cleaning chain -/

theorem unescapeAux_no_amp :
    ∀ (f : Nat) (cs : List Char), '&' ∉ cs → cs.length < f → unescapeAux f cs = cs := by
  intro f
  induction f with
  | zero => intro cs _ hf; exact absurd hf (Nat.not_lt_zero _)
  | succ f ih =>
    intro cs h hf
    cases cs with
    | nil => rfl
    | cons c t =>
      have hc : ¬ (c = '&') := fun hh => h (hh ▸ List.mem_cons_self c t)
      have ht : '&' ∉ t := fun hh => h (List.mem_cons_of_mem _ hh)
      simp only [unescapeAux, hc, if_false]
      rw [ih t ht (by simpa using Nat.lt_of_succ_lt_succ hf)]

theorem htmlUnescape_no_amp (s : String) (h : '&' ∉ s.data) : htmlUnescape s = s := by
  have h1 : unescapeAux (s.length + 1) s.data = s.data :=
    unescapeAux_no_amp _ _ h (by have h2 : s.length = s.data.length := rfl; omega)
  show (⟨unescapeAux (s.length + 1) s.data⟩ : String) = s
  rw [h1]

theorem tagStripAux_no_lt :
    ∀ (f : Nat) (cs : List Char), '<' ∉ cs → cs.length < f → tagStripAux f cs = cs := by
  intro f
  induction f with
  | zero => intro cs _ hf; exact absurd hf (Nat.not_lt_zero _)
  | succ f ih =>
    intro cs h hf
    cases cs with
    | nil => rfl
    | cons c t =>
      have hc : ¬ (c = '<') := fun hh => h (hh ▸ List.mem_cons_self c t)
      have ht : '<' ∉ t := fun hh => h (List.mem_cons_of_mem _ hh)
      simp only [tagStripAux, hc, if_false]
      rw [ih t ht (by simpa using Nat.lt_of_succ_lt_succ hf)]

theorem dropWhile_head_not (p : Char → Bool) :
    ∀ (l : List Char) (c : Char), (l.dropWhile p).head? = some c → p c = false := by
  intro l
  induction l with
  | nil => intro c h; simp [List.dropWhile] at h
  | cons a t ih =>
    intro c h
    by_cases hp : p a
    · rw [List.dropWhile_cons, if_pos hp] at h; exact ih c h
    · rw [List.dropWhile_cons, if_neg hp] at h
      simp only [List.head?] at h
      injection h with h
      subst h
      simpa using hp

theorem dropWhile_eq_self (p : Char → Bool) (l : List Char)
    (h : ∀ c, l.head? = some c → p c = false) : l.dropWhile p = l := by
  cases l with
  | nil => rfl
  | cons a t => rw [List.dropWhile_cons, if_neg (by simp [h a rfl])]

theorem pyStripList_head_not_ws (cs : List Char) (c : Char)
    (h : (pyStripList cs).head? = some c) : isPyWs c = false := by
  unfold pyStripList at h
  obtain ⟨u, hu⟩ := List.dropWhile_suffix (l := (cs.dropWhile isPyWs).reverse) isPyWs
  have hA : cs.dropWhile isPyWs
      = ((cs.dropWhile isPyWs).reverse.dropWhile isPyWs).reverse ++ u.reverse := by
    have h2 := congrArg List.reverse hu
    simpa [List.reverse_append] using h2.symm
  apply dropWhile_head_not isPyWs cs c
  cases hB : ((cs.dropWhile isPyWs).reverse.dropWhile isPyWs).reverse with
  | nil => rw [hB] at h; simp at h
  | cons c0 v =>
    rw [hB] at h
    rw [hB] at hA
    simp only [List.head?] at h
    injection h with h
    rw [hA]
    simp [h]

theorem pyStripList_idem (cs : List Char) :
    pyStripList (pyStripList cs) = pyStripList cs := by
  have h1 : (pyStripList cs).dropWhile isPyWs = pyStripList cs :=
    dropWhile_eq_self _ _ (fun c hc => pyStripList_head_not_ws cs c hc)
  have h2 : ((cs.dropWhile isPyWs).reverse.dropWhile isPyWs).dropWhile isPyWs
      = (cs.dropWhile isPyWs).reverse.dropWhile isPyWs :=
    dropWhile_eq_self _ _ (fun c hc => dropWhile_head_not _ _ _ hc)
  show (((pyStripList cs).dropWhile isPyWs).reverse.dropWhile isPyWs).reverse = _
  rw [h1]
  show ((((cs.dropWhile isPyWs).reverse.dropWhile isPyWs).reverse).reverse.dropWhile
    isPyWs).reverse = _
  rw [List.reverse_reverse, h2]
  rfl

theorem noWsRun_cons (c : Char) (t : List Char) (h : noWsRun (c :: t) = true) :
    noWsRun t = true := by
  cases t with
  | nil => rfl
  | cons d u =>
    simp only [noWsRun, Bool.and_eq_true] at h
    exact h.2

theorem noWsRun_suffix :
    ∀ (a u : List Char), noWsRun (a ++ u) = true → noWsRun u = true := by
  intro a
  induction a with
  | nil => intro u h; simpa using h
  | cons c a' ih => intro u h; exact ih u (noWsRun_cons _ _ h)

theorem noWsRun_append_left :
    ∀ (u b : List Char), noWsRun (u ++ b) = true → noWsRun u = true := by
  intro u
  induction u with
  | nil => intro b _; rfl
  | cons c u' ih =>
    intro b h
    cases u' with
    | nil =>
      cases b with
      | nil => simpa using h
      | cons d b' =>
        simp only [List.cons_append, List.nil_append, noWsRun, Bool.and_eq_true] at h
        simpa [noWsRun] using h.1.1
    | cons d u'' =>
      simp only [List.cons_append, noWsRun, Bool.and_eq_true] at h ⊢
      exact ⟨h.1, ih b h.2⟩

theorem collapseWsAux_head (f : Nat) (u : List Char) (c : Char)
    (hu : ∀ d, u.head? = some d → isPyWs d = false)
    (h : (collapseWsAux f u).head? = some c) : isPyWs c = false := by
  cases f with
  | zero => exact hu c h
  | succ f =>
    cases u with
    | nil => simp [collapseWsAux] at h
    | cons d t =>
      have hd := hu d rfl
      rw [show collapseWsAux (f + 1) (d :: t)
          = if isPyWs d then ' ' :: collapseWsAux f (t.dropWhile isPyWs)
            else d :: collapseWsAux f t from rfl, if_neg (by simp [hd])] at h
      simp only [List.head?] at h
      injection h with h
      subst h
      exact hd

theorem noWsRun_collapseWsAux :
    ∀ (f : Nat) (cs : List Char), cs.length < f →
      noWsRun (collapseWsAux f cs) = true := by
  intro f
  induction f with
  | zero => intro cs hf; exact absurd hf (Nat.not_lt_zero _)
  | succ f ih =>
    intro cs hf
    cases cs with
    | nil => rfl
    | cons c t =>
      have hlt : t.length < f := by simpa using Nat.lt_of_succ_lt_succ hf
      by_cases hc : isPyWs c
      · have hdl : (t.dropWhile isPyWs).length < f :=
          Nat.lt_of_le_of_lt (List.dropWhile_suffix isPyWs).length_le hlt
        have hrec := ih (t.dropWhile isPyWs) hdl
        cases hX : collapseWsAux f (t.dropWhile isPyWs) with
        | nil => simp [collapseWsAux, hc, hX, noWsRun]
        | cons d v =>
          have hdnot : isPyWs d = false :=
            collapseWsAux_head f _ d (fun e he => dropWhile_head_not _ _ _ he)
              (by rw [hX]; rfl)
          have hrec' : noWsRun (d :: v) = true := hX ▸ hrec
          simp [collapseWsAux, hc, hX, noWsRun, hdnot, hrec']
      · have hrec := ih t hlt
        cases hX : collapseWsAux f t with
        | nil => simp [collapseWsAux, hc, hX, noWsRun]
        | cons d v =>
          have hrec' : noWsRun (d :: v) = true := hX ▸ hrec
          simp [collapseWsAux, hc, hX, noWsRun, hrec']

theorem collapseWsAux_id_of_noWsRun :
    ∀ (f : Nat) (u : List Char), u.length < f → noWsRun u = true →
      collapseWsAux f u = u := by
  intro f
  induction f with
  | zero => intro u hf; exact absurd hf (Nat.not_lt_zero _)
  | succ f ih =>
    intro u hf h
    cases u with
    | nil => rfl
    | cons c t =>
      have hlt : t.length < f := by simpa using Nat.lt_of_succ_lt_succ hf
      have ht := noWsRun_cons c t h
      by_cases hc : isPyWs c
      · have hsp : c = ' ' := by
          cases t with
          | nil => simp only [noWsRun, hc, Bool.not_true, Bool.false_or] at h; simpa using h
          | cons d u' =>
            simp only [noWsRun, hc, Bool.not_true, Bool.false_or, Bool.and_eq_true] at h
            simpa using h.1.1
        have hdw : t.dropWhile isPyWs = t := by
          apply dropWhile_eq_self
          intro d hd
          cases t with
          | nil => simp at hd
          | cons d0 u' =>
            simp only [List.head?] at hd
            injection hd with hd
            subst hd
            simp only [noWsRun, hc, Bool.and_eq_true] at h
            have := h.1.2
            simpa [hc] using this
        simp [collapseWsAux, hc, hdw, hsp, ih t hlt ht]
      · simp [collapseWsAux, hc, ih t hlt ht]

theorem noWsRun_pyStripList (l : List Char) (h : noWsRun l = true) :
    noWsRun (pyStripList l) = true := by
  obtain ⟨a, ha⟩ := List.dropWhile_suffix (l := l) isPyWs
  have h1 : noWsRun (l.dropWhile isPyWs) = true :=
    noWsRun_suffix a _ (by rw [ha]; exact h)
  obtain ⟨u, hu⟩ := List.dropWhile_suffix (l := (l.dropWhile isPyWs).reverse) isPyWs
  have hA : l.dropWhile isPyWs
      = ((l.dropWhile isPyWs).reverse.dropWhile isPyWs).reverse ++ u.reverse := by
    have h2 := congrArg List.reverse hu
    simpa [List.reverse_append] using h2.symm
  show noWsRun ((List.dropWhile isPyWs (List.dropWhile isPyWs l).reverse).reverse) = true
  exact noWsRun_append_left _ u.reverse (by rw [← hA]; exact h1)

theorem normWs_noWsRun (l : List Char) : noWsRun (normWs l) = true :=
  noWsRun_pyStripList _ (noWsRun_collapseWsAux _ _ (Nat.lt_succ_self _))

theorem normWs_idem (l : List Char) : normWs (normWs l) = normWs l := by
  unfold normWs
  rw [collapseWsAux_id_of_noWsRun _ _ (Nat.lt_succ_self _)
    (by simpa [normWs] using normWs_noWsRun l)]
  exact pyStripList_idem _

/-- C5 (amended): cleaning is idempotent on every input whose once-cleaned
text contains neither `&` nor `<`; in general re-unescaping (and then
re-tag-stripping) the cleaned text can change it further — see the
counterexample. -/
theorem C5_clean_conditionally_idempotent (s : String)
    (hamp : '&' ∉ (_clean s).data) (hlt : '<' ∉ (_clean s).data) :
    _clean (_clean s) = _clean s := by
  show (⟨normWs (tagStripAux ((htmlUnescape (_clean s)).data.length + 1)
    (htmlUnescape (_clean s)).data)⟩ : String) = _clean s
  rw [htmlUnescape_no_amp _ hamp,
    tagStripAux_no_lt _ _ hlt (Nat.lt_succ_self _)]
  show (⟨normWs (normWs (tagStripAux _ _))⟩ : String) = _clean s
  rw [normWs_idem]
  rfl

/-- C5 counterexample: `_clean` is not idempotent — unescaping runs again on
the cleaned text, so `&amp;amp;` cleans to `&amp;` once and to `&` twice. -/
theorem C5_counterexample :
    _clean "&amp;amp;" = "&amp;" ∧ _clean (_clean "&amp;amp;") = "&" ∧
    _clean (_clean "&amp;amp;") ≠ _clean "&amp;amp;" :=
  ⟨rfl, rfl, by decide⟩

/-- C5 witness: the amended idempotence at a concrete input whose cleaned
form is entity- and tag-free. -/
theorem C5_witness :
    '&' ∉ (_clean "  Open   App  ").data ∧ '<' ∉ (_clean "  Open   App  ").data ∧
    _clean (_clean "  Open   App  ") = _clean "  Open   App  " :=
  ⟨by decide, by decide,
   C5_clean_conditionally_idempotent _ (by decide) (by decide)⟩

/-! ## C9: region-extraction semantics -/

theorem findFirst_eq_some (p : Nat → Bool) :
    ∀ (fuel start i : Nat), findFirst p start fuel = some i →
      p i = true ∧ start ≤ i ∧ i < start + fuel ∧
      ∀ k, start ≤ k → k < i → p k = false := by
  intro fuel
  induction fuel with
  | zero => intro start i h; cases h
  | succ fuel ih =>
    intro start i h
    rw [findFirst] at h
    by_cases hp : p start
    · rw [if_pos hp] at h
      injection h with h
      subst h
      exact ⟨hp, Nat.le_refl _, by omega, fun k hk1 hk2 => absurd hk1 (by omega)⟩
    · rw [if_neg hp] at h
      obtain ⟨h1, h2, h3, h4⟩ := ih (start + 1) i h
      refine ⟨h1, by omega, by omega, ?_⟩
      intro k hk1 hk2
      by_cases hks : k = start
      · subst hks; simpa using hp
      · exact h4 k (by omega) hk2

theorem findFirst_eq_none (p : Nat → Bool) :
    ∀ (fuel start : Nat), findFirst p start fuel = none →
      ∀ k, start ≤ k → k < start + fuel → p k = false := by
  intro fuel
  induction fuel with
  | zero => intro start _ k hk1 hk2; omega
  | succ fuel ih =>
    intro start h k hk1 hk2
    rw [findFirst] at h
    by_cases hp : p start
    · rw [if_pos hp] at h; cases h
    · rw [if_neg hp] at h
      by_cases hks : k = start
      · subst hks; simpa using hp
      · exact ih (start + 1) h k (by omega) (by omega)

theorem findFirst_isSome_intro (p : Nat → Bool) (fuel start j : Nat)
    (h1 : start ≤ j) (h2 : j < start + fuel) (h3 : p j = true) :
    (findFirst p start fuel).isSome = true := by
  cases h : findFirst p start fuel with
  | none => rw [findFirst_eq_none p fuel start h j h1 h2] at h3; cases h3
  | some i => rfl

theorem findFirst_some_intro (p : Nat → Bool) :
    ∀ (fuel start i : Nat), start ≤ i → i < start + fuel → p i = true →
      (∀ k, start ≤ k → k < i → p k = false) → findFirst p start fuel = some i := by
  intro fuel
  induction fuel with
  | zero => intro start i h1 h2; omega
  | succ fuel ih =>
    intro start i h1 h2 h3 h4
    rw [findFirst]
    by_cases hs : start = i
    · subst hs; rw [if_pos h3]
    · have hps : p start = false := h4 start (Nat.le_refl _) (by omega)
      rw [if_neg (by simp [hps])]
      exact ih (start + 1) i (by omega) (by omega) h3 (fun k hk1 hk2 => h4 k (by omega) hk2)

theorem isCharAt_lt (cs : List Char) (j : Nat) (c : Char)
    (h : isCharAt cs j c = true) : j < cs.length := by
  unfold isCharAt at h
  cases hj : cs[j]? with
  | none => rw [hj] at h; cases h
  | some c' => exact (List.getElem?_eq_some.mp hj).1

theorem hasCloseAfterB_iff (cs : List Char) (i : Nat) :
    hasCloseAfterB cs i = true ↔ ∃ j, i < j ∧ isCharAt cs j '}' = true := by
  constructor
  · intro h
    unfold hasCloseAfterB at h
    cases hf : findFirst (fun j => isCharAt cs j '}') (i + 1) cs.length with
    | none => rw [hf] at h; cases h
    | some j =>
      obtain ⟨h1, h2, _, _⟩ := findFirst_eq_some _ _ _ _ hf
      exact ⟨j, by omega, h1⟩
  · rintro ⟨j, hij, hj⟩
    exact findFirst_isSome_intro _ _ _ j hij
      (by have := isCharAt_lt cs j '}' hj; omega) hj

theorem reFindBraces_eq_spec (s : String) : reFindBraces s = specJsonRegion s := by
  unfold reFindBraces specJsonRegion
  cases h1 : findFirst (fun i => isCharAt s.data i '{' && hasCloseAfterB s.data i)
      0 s.data.length with
  | none =>
    cases h2 : findFirst (fun i => isCharAt s.data i '{') 0 s.data.length with
    | none => simp only [h1, h2]
    | some i =>
      cases h3 : findLast (fun j => isCharAt s.data j '}') s.data.length with
      | none => simp only [h1, h2, h3]
      | some j =>
        obtain ⟨hi, _, hin, _⟩ := findFirst_eq_some _ _ _ _ h2
        have hjprops : isCharAt s.data j '}' = true ∧ j < s.data.length := by
          unfold findLast at h3
          cases h4 : findFirst (fun k => isCharAt s.data (s.data.length - 1 - k) '}')
              0 s.data.length with
          | none => rw [h4] at h3; cases h3
          | some k =>
            rw [h4] at h3
            injection h3 with h3
            obtain ⟨hk, _, hkn, _⟩ := findFirst_eq_some _ _ _ _ h4
            subst h3
            exact ⟨hk, by omega⟩
        by_cases hij : i < j
        · exfalso
          have hcomp : (fun i => isCharAt s.data i '{' && hasCloseAfterB s.data i) i
              = false :=
            findFirst_eq_none _ _ _ h1 i (Nat.zero_le _) (by omega)
          simp only [Bool.and_eq_false_iff] at hcomp
          rcases hcomp with hc | hc
          · rw [hi] at hc; cases hc
          · rw [(hasCloseAfterB_iff s.data i).mpr ⟨j, hij, hjprops.1⟩] at hc
            cases hc
        · simp only [h1, h2, h3]
          simp [hij]
  | some i =>
    obtain ⟨hpi, _, hin, hmin⟩ := findFirst_eq_some _ _ _ _ h1
    simp only [Bool.and_eq_true] at hpi
    obtain ⟨hopen, hclose⟩ := hpi
    obtain ⟨j0, hj0i, hj0⟩ := (hasCloseAfterB_iff s.data i).mp hclose
    have h2 : findFirst (fun k => isCharAt s.data k '{') 0 s.data.length = some i := by
      apply findFirst_some_intro _ _ _ _ (Nat.zero_le _) (by omega) hopen
      intro k hk1 hk2
      cases hck : isCharAt s.data k '{' with
      | false => rfl
      | true =>
        exfalso
        have hcomp := hmin k hk1 hk2
        simp only [Bool.and_eq_false_iff] at hcomp
        rcases hcomp with hc | hc
        · rw [hck] at hc; cases hc
        · rw [(hasCloseAfterB_iff s.data k).mpr ⟨j0, by omega, hj0⟩] at hc
          cases hc
    cases h3 : findLast (fun j => isCharAt s.data j '}') s.data.length with
    | none =>
      exfalso
      unfold findLast at h3
      cases h4 : findFirst (fun k => isCharAt s.data (s.data.length - 1 - k) '}')
          0 s.data.length with
      | some k => rw [h4] at h3; cases h3
      | none =>
        have hlt := isCharAt_lt s.data j0 '}' hj0
        have := findFirst_eq_none _ _ _ h4 (s.data.length - 1 - j0)
          (Nat.zero_le _) (by omega)
        rw [show s.data.length - 1 - (s.data.length - 1 - j0) = j0 by omega] at this
        rw [hj0] at this
        cases this
    | some j =>
      have hij : i < j := by
        unfold findLast at h3
        cases h4 : findFirst (fun k => isCharAt s.data (s.data.length - 1 - k) '}')
            0 s.data.length with
        | none => rw [h4] at h3; cases h3
        | some k =>
          rw [h4] at h3
          injection h3 with h3
          obtain ⟨hk, _, hkn, hkmin⟩ := findFirst_eq_some _ _ _ _ h4
          subst h3
          have hlt := isCharAt_lt s.data j0 '}' hj0
          by_contra hcon
          have hj0lt : s.data.length - 1 - k < j0 := by omega
          have hkgt : s.data.length - 1 - j0 < k := by omega
          have := hkmin (s.data.length - 1 - j0) (Nat.zero_le _) hkgt
          rw [show s.data.length - 1 - (s.data.length - 1 - j0) = j0 by omega] at this
          rw [hj0] at this
          cases this
      simp only [h1, h2, h3]
      simp [hij]

theorem isCloseTagAt_lt (ls : List Char) (c : Nat)
    (h : isCloseTagAt ls c = true) : c < ls.length := by
  by_contra hcon
  push_neg at hcon
  unfold isCloseTagAt at h
  rw [List.drop_eq_nil_of_le hcon] at h
  exact absurd h (by decide)

theorem closeExists_mono (ls : List Char) (k i : Nat) (hki : k ≤ i)
    (h : (findFirst (fun c => isCloseTagAt ls c) (i + 6) ls.length).isSome = true) :
    (findFirst (fun c => isCloseTagAt ls c) (k + 6) ls.length).isSome = true := by
  cases hf : findFirst (fun c => isCloseTagAt ls c) (i + 6) ls.length with
  | none => rw [hf] at h; cases h
  | some c =>
    obtain ⟨hc, hc1, hc2, _⟩ := findFirst_eq_some _ _ _ _ hf
    have hcl := isCloseTagAt_lt ls c hc
    exact findFirst_isSome_intro _ _ _ c (by omega) (by omega) hc

theorem reFindStepsRegion_eq_lazy (s : String) :
    reFindStepsRegion s = specXmlLazyRegion s := by
  unfold reFindStepsRegion specXmlLazyRegion
  cases h1 : findFirst
      (fun i => isOpenTagAt (s.data.map asciiLower) i &&
        (findFirst (fun c => isCloseTagAt (s.data.map asciiLower) c) (i + 6)
          (s.data.map asciiLower).length).isSome)
      0 (s.data.map asciiLower).length with
  | none =>
    cases h2 : findFirst (fun i => isOpenTagAt (s.data.map asciiLower) i)
        0 (s.data.map asciiLower).length with
    | none => simp only [h1, h2]
    | some i =>
      cases h3 : findFirst (fun c => isCloseTagAt (s.data.map asciiLower) c) (i + 6)
          (s.data.map asciiLower).length with
      | none => simp only [h1, h2, h3]
      | some c =>
        exfalso
        obtain ⟨hopen, _, hin, _⟩ := findFirst_eq_some _ _ _ _ h2
        have hcomp := findFirst_eq_none _ _ _ h1 i (Nat.zero_le _) (by omega)
        simp only [Bool.and_eq_false_iff] at hcomp
        rcases hcomp with hc | hc
        · rw [hopen] at hc; cases hc
        · rw [h3] at hc; cases hc
  | some i =>
    obtain ⟨hpi, _, hin, hmin⟩ := findFirst_eq_some _ _ _ _ h1
    simp only [Bool.and_eq_true] at hpi
    obtain ⟨hopen, hclose⟩ := hpi
    have h2 : findFirst (fun k => isOpenTagAt (s.data.map asciiLower) k)
        0 (s.data.map asciiLower).length = some i := by
      apply findFirst_some_intro _ _ _ _ (Nat.zero_le _) (by omega) hopen
      intro k hk1 hk2
      cases hck : isOpenTagAt (s.data.map asciiLower) k with
      | false => rfl
      | true =>
        exfalso
        have hcomp := hmin k hk1 hk2
        simp only [Bool.and_eq_false_iff] at hcomp
        rcases hcomp with hc | hc
        · rw [hck] at hc; cases hc
        · rw [closeExists_mono _ k i (by omega) hclose] at hc
          cases hc
    simp only [h1, h2]

/-- C9 (amended): the JSON recovery region does span from the first `{` to
the last `}` of the whole text, but the markup-root region regex is lazy —
it spans from the first `<steps` opening tag to the FIRST `</steps>`
closing tag after it, not the last. -/
theorem C9_region_semantics :
    (∀ s, reFindBraces s = specJsonRegion s) ∧
    (∀ s, reFindStepsRegion s = specXmlLazyRegion s) :=
  ⟨reFindBraces_eq_spec, reFindStepsRegion_eq_lazy⟩

/-- C9 counterexample: on a text with two step blocks the selected markup
region stops at the first closing tag, not the last — the claim's
"first opening marker to the last closing marker" fails for the markup
root element. -/
theorem C9_counterexample :
    reFindStepsRegion "<steps>a</steps>x<steps>b</steps>" = some "<steps>a</steps>" ∧
    specXmlFirstToLastRegion "<steps>a</steps>x<steps>b</steps>"
      = some "<steps>a</steps>x<steps>b</steps>" ∧
    reFindStepsRegion "<steps>a</steps>x<steps>b</steps>"
      ≠ specXmlFirstToLastRegion "<steps>a</steps>x<steps>b</steps>" :=
  ⟨rfl, rfl, by decide⟩

/-! ## C2/C10: JSON parser consumption lemmas -/

theorem skipJWs_suffix (cs : List Char) : skipJWs cs <:+ cs :=
  List.dropWhile_suffix _

theorem parseJStringL_suffix :
    ∀ (n : Nat) (cs : List Char), cs.length ≤ n →
      ∀ s r, parseJStringL cs = some (s, r) → r <:+ cs := by
  intro n
  induction n with
  | zero =>
    intro cs hlen s r h
    cases cs with
    | nil => cases h
    | cons c t => simp at hlen
  | succ n ih =>
    intro cs hlen s r h
    cases cs with
    | nil => cases h
    | cons c t =>
      unfold parseJStringL at h
      by_cases hq : c = '"'
      · rw [if_pos hq] at h
        injection h with h
        injection h with h1 h2
        exact h2 ▸ List.suffix_cons c t
      · rw [if_neg hq] at h
        by_cases hb : c = '\\'
        · rw [if_pos hb] at h
          split at h
          · exact Option.noConfusion h
          · split at h
            · split at h
              · split at h
                · split at h
                  · exact Option.noConfusion h
                  · split at h
                    · rename_i s' r' heq
                      injection h with h
                      injection h with hs hr
                      rw [← hr]
                      exact (ih _ (by simp at hlen; omega) _ _ heq).trans
                        ((List.suffix_cons _ _).trans ((List.suffix_cons _ _).trans
                        ((List.suffix_cons _ _).trans ((List.suffix_cons _ _).trans
                        ((List.suffix_cons _ _).trans (List.suffix_cons _ _))))))
                    · exact Option.noConfusion h
                · exact Option.noConfusion h
              · exact Option.noConfusion h
            · split at h
              · split at h
                · rename_i s' r' heq
                  injection h with h
                  injection h with hs hr
                  rw [← hr]
                  exact (ih _ (by simp at hlen; omega) _ _ heq).trans
                    ((List.suffix_cons _ _).trans (List.suffix_cons _ _))
                · exact Option.noConfusion h
              · exact Option.noConfusion h
        · rw [if_neg hb] at h
          by_cases hctl : c.toNat < 0x20
          · rw [if_pos hctl] at h; cases h
          · rw [if_neg hctl] at h
            cases hrec : parseJStringL t with
            | none => rw [hrec] at h; cases h
            | some pr =>
              obtain ⟨s', r'⟩ := pr
              rw [hrec] at h
              injection h with h
              injection h with hs hr
              have hsf : r' <:+ t := ih t (by simp at hlen; omega) s' r' hrec
              subst hr
              exact hsf.trans (List.suffix_cons c t)

theorem parseIntPart_suffix (cs : List Char) (ip r : List Char)
    (h : parseIntPart cs = some (ip, r)) : r <:+ cs := by
  cases cs with
  | nil => cases h
  | cons c t =>
    simp only [parseIntPart] at h
    by_cases h0 : c = '0'
    · rw [if_pos h0] at h
      injection h with h
      injection h with h1 h2
      exact h2 ▸ List.suffix_cons c t
    · rw [if_neg h0] at h
      by_cases hd : c.isDigit
      · rw [if_pos hd] at h
        injection h with h
        injection h with h1 h2
        exact h2 ▸ (List.dropWhile_suffix _).trans (List.suffix_cons c t)
      · rw [if_neg hd] at h
        cases h

theorem parseFracPart_suffix (cs : List Char) : (parseFracPart cs).2 <:+ cs := by
  cases cs with
  | nil => simp [parseFracPart]
  | cons c t =>
    simp only [parseFracPart]
    by_cases hc : c = '.'
    · rw [if_pos hc]
      split
      · exact List.suffix_refl _
      · exact (List.dropWhile_suffix _).trans (hc ▸ List.suffix_cons c t)
    · rw [if_neg hc]

theorem parseExpPart_suffix (cs : List Char) : (parseExpPart cs).2 <:+ cs := by
  cases cs with
  | nil => simp [parseExpPart]
  | cons e t =>
    cases t with
    | nil => simp [parseExpPart]
    | cons s2 rest =>
      simp only [parseExpPart]
      split
      · split
        · split
          · exact List.suffix_refl _
          · exact ((List.dropWhile_suffix _).trans (List.suffix_cons s2 _)).trans
              (List.suffix_cons e _)
        · split
          · exact List.suffix_refl _
          · exact (List.dropWhile_suffix _).trans (List.suffix_cons e _)
      · exact List.suffix_refl _

theorem signSplit_suffix (cs : List Char) : (signSplit cs).2 <:+ cs := by
  unfold signSplit
  split
  · exact List.suffix_cons '-' _
  · exact List.suffix_refl _

theorem parseNumber_suffix (cs : List Char) (lit : String) (r : List Char)
    (h : parseNumber cs = some (lit, r)) : r <:+ cs := by
  unfold parseNumber at h
  cases hip : parseIntPart (signSplit cs).2 with
  | none => rw [hip] at h; cases h
  | some pr =>
    obtain ⟨ip, cs2⟩ := pr
    rw [hip] at h
    injection h with h
    injection h with h1 h2
    have hs2 : cs2 <:+ (signSplit cs).2 := parseIntPart_suffix _ _ _ hip
    have hfrac := parseFracPart_suffix cs2
    have hexp := parseExpPart_suffix (parseFracPart cs2).2
    exact h2 ▸ ((hexp.trans hfrac).trans hs2).trans (signSplit_suffix cs)

/-- Every parser in the mutual block only consumes input: the remainder is a
suffix of what it was given. -/
theorem parsers_suffix :
    ∀ f : Nat,
      (∀ cs j r, parseValue f cs = some (j, r) → r <:+ cs) ∧
      (∀ cs j r, parseObjBody f cs = some (j, r) → r <:+ cs) ∧
      (∀ cs acc j r, parseMembers f cs acc = some (j, r) → r <:+ cs) ∧
      (∀ cs j r, parseArrBody f cs = some (j, r) → r <:+ cs) ∧
      (∀ cs acc j r, parseElems f cs acc = some (j, r) → r <:+ cs) := by
  intro f
  induction f with
  | zero =>
    refine ⟨?_, ?_, ?_, ?_, ?_⟩
    · intro cs j r h; cases h
    · intro cs j r h; cases h
    · intro cs acc j r h; cases h
    · intro cs j r h; cases h
    · intro cs acc j r h; cases h
  | succ f ih =>
    obtain ⟨ihv, iho, ihm, iha, ihe⟩ := ih
    refine ⟨?_, ?_, ?_, ?_, ?_⟩
    · intro cs j r h
      unfold parseValue at h
      split at h
      · rename_i t heq
        exact ((iho _ _ _ h).trans (by rw [heq]; exact List.suffix_cons _ _)).trans
          (skipJWs_suffix cs)
      · rename_i t heq
        exact ((iha _ _ _ h).trans (by rw [heq]; exact List.suffix_cons _ _)).trans
          (skipJWs_suffix cs)
      · rename_i t heq
        split at h
        · rename_i s' r' heq2
          injection h with h
          injection h with hs hr
          rw [← hr]
          refine ((parseJStringL_suffix t.length t (Nat.le_refl _) _ _ heq2).trans
            ?_).trans (skipJWs_suffix cs)
          rw [heq]; exact List.suffix_cons _ _
        · exact Option.noConfusion h
      · rename_i hne1 hne2 hne3
        split at h
        · injection h with h
          injection h with hj hr
          rw [← hr]
          exact (List.drop_suffix _ _).trans (skipJWs_suffix cs)
        · split at h
          · injection h with h
            injection h with hj hr
            rw [← hr]
            exact (List.drop_suffix _ _).trans (skipJWs_suffix cs)
          · split at h
            · injection h with h
              injection h with hj hr
              rw [← hr]
              exact (List.drop_suffix _ _).trans (skipJWs_suffix cs)
            · split at h
              · rename_i lit r' heq2
                injection h with h
                injection h with hj hr
                rw [← hr]
                exact (parseNumber_suffix _ _ _ heq2).trans (skipJWs_suffix cs)
              · exact Option.noConfusion h
    · intro cs j r h
      unfold parseObjBody at h
      split at h
      · rename_i r1 heq
        injection h with h
        injection h with hj hr
        rw [← hr]
        refine List.IsSuffix.trans ?_ (skipJWs_suffix cs)
        rw [heq]
        exact List.suffix_cons _ _
      · rename_i hne
        exact (ihm _ _ _ _ h).trans (skipJWs_suffix cs)
    · intro cs acc j r h
      unfold parseMembers at h
      split at h
      · rename_i t
        split at h
        · rename_i k r1 heq1
          split at h
          · rename_i r2 heq2
            split at h
            · rename_i v r3 heq3
              split at h
              · rename_i r4 heq4
                have hch : r <:+ skipJWs r4 := ihm _ _ _ _ h
                have h43 : r4 <:+ skipJWs r3 := by
                  rw [heq4]; exact List.suffix_cons _ _
                have h21 : r2 <:+ skipJWs r1 := by
                  rw [heq2]; exact List.suffix_cons _ _
                have h1t : r1 <:+ t :=
                  parseJStringL_suffix t.length t (Nat.le_refl _) _ _ heq1
                exact ((((((((hch.trans (skipJWs_suffix r4)).trans h43).trans
                  (skipJWs_suffix r3)).trans (ihv _ _ _ heq3)).trans h21).trans
                  (skipJWs_suffix r1)).trans h1t).trans (List.suffix_cons _ _))
              · rename_i r4 heq4
                injection h with h
                injection h with hj hr
                rw [← hr]
                have h43 : r4 <:+ skipJWs r3 := by
                  rw [heq4]; exact List.suffix_cons _ _
                have h21 : r2 <:+ skipJWs r1 := by
                  rw [heq2]; exact List.suffix_cons _ _
                have h1t : r1 <:+ t :=
                  parseJStringL_suffix t.length t (Nat.le_refl _) _ _ heq1
                exact (((((((h43.trans (skipJWs_suffix r3)).trans
                  (ihv _ _ _ heq3)).trans h21).trans (skipJWs_suffix r1)).trans
                  h1t).trans (List.suffix_cons _ _)))
              · exact Option.noConfusion h
            · exact Option.noConfusion h
          · exact Option.noConfusion h
        · exact Option.noConfusion h
      · exact Option.noConfusion h
    · intro cs j r h
      unfold parseArrBody at h
      split at h
      · rename_i r1 heq
        injection h with h
        injection h with hj hr
        rw [← hr]
        refine List.IsSuffix.trans ?_ (skipJWs_suffix cs)
        rw [heq]
        exact List.suffix_cons _ _
      · rename_i hne
        exact (ihe _ _ _ _ h).trans (skipJWs_suffix cs)
    · intro cs acc j r h
      unfold parseElems at h
      split at h
      · rename_i v r1 heq1
        split at h
        · rename_i r2 heq2
          have h21 : r2 <:+ skipJWs r1 := by rw [heq2]; exact List.suffix_cons _ _
          exact ((ihe _ _ _ _ h).trans (h21.trans (skipJWs_suffix r1))).trans
            (ihv _ _ _ heq1)
        · rename_i r2 heq2
          injection h with h
          injection h with hj hr
          rw [← hr]
          have h21 : r2 <:+ skipJWs r1 := by rw [heq2]; exact List.suffix_cons _ _
          exact (h21.trans (skipJWs_suffix r1)).trans (ihv _ _ _ heq1)
        · exact Option.noConfusion h
      · exact Option.noConfusion h

/-- A successful object-member loop must have consumed a closing brace. -/
theorem parseMembers_close :
    ∀ (f : Nat) (cs : List Char) (acc : List (String × Json)) (j : Json)
      (r : List Char), parseMembers f cs acc = some (j, r) → '}' ∈ cs := by
  intro f
  induction f with
  | zero => intro cs acc j r h; cases h
  | succ f ih =>
    intro cs acc j r h
    unfold parseMembers at h
    split at h
    · rename_i t
      split at h
      · rename_i k r1 heq1
        split at h
        · rename_i r2 heq2
          split at h
          · rename_i v r3 heq3
            split at h
            · rename_i r4 heq4
              have hm := ih _ _ _ _ h
              have h43 : r4 <:+ skipJWs r3 := by
                rw [heq4]; exact List.suffix_cons _ _
              have h21 : r2 <:+ skipJWs r1 := by
                rw [heq2]; exact List.suffix_cons _ _
              have h1 : skipJWs r4 <:+ t :=
                ((((((skipJWs_suffix r4).trans h43).trans
                  (skipJWs_suffix r3)).trans ((parsers_suffix f).1 _ _ _ heq3)).trans
                  h21).trans (skipJWs_suffix r1)).trans
                  (parseJStringL_suffix t.length t (Nat.le_refl _) _ _ heq1)
              exact List.mem_cons_of_mem _ (h1.subset hm)
            · rename_i r4 heq4
              have hmem : '}' ∈ skipJWs r3 := by
                rw [heq4]; exact List.mem_cons_self _ _
              have h21 : r2 <:+ skipJWs r1 := by
                rw [heq2]; exact List.suffix_cons _ _
              have h3t : skipJWs r3 <:+ t :=
                ((((skipJWs_suffix r3).trans ((parsers_suffix f).1 _ _ _ heq3)).trans
                  h21).trans (skipJWs_suffix r1)).trans
                  (parseJStringL_suffix t.length t (Nat.le_refl _) _ _ heq1)
              exact List.mem_cons_of_mem _ (h3t.subset hmem)
            · exact Option.noConfusion h
          · exact Option.noConfusion h
        · exact Option.noConfusion h
      · exact Option.noConfusion h
    · exact Option.noConfusion h

/-- A successful object body must have consumed a closing brace. -/
theorem parseObjBody_close (f : Nat) (cs : List Char) (j : Json) (r : List Char)
    (h : parseObjBody f cs = some (j, r)) : '}' ∈ cs := by
  cases f with
  | zero => cases h
  | succ f =>
    unfold parseObjBody at h
    split at h
    · rename_i r1 heq
      have hmem : '}' ∈ skipJWs cs := by rw [heq]; exact List.mem_cons_self _ _
      exact (skipJWs_suffix cs).subset hmem
    · rename_i hne
      exact (skipJWs_suffix cs).subset (parseMembers_close _ _ _ _ _ h)

/-- The member loop only ever returns object values. -/
theorem parseMembers_isObj :
    ∀ (f : Nat) (cs : List Char) (acc : List (String × Json)) (j : Json)
      (r : List Char), parseMembers f cs acc = some (j, r) → j.isObj = true := by
  intro f
  induction f with
  | zero => intro cs acc j r h; cases h
  | succ f ih =>
    intro cs acc j r h
    unfold parseMembers at h
    split at h
    · rename_i t
      split at h
      · rename_i k r1 heq1
        split at h
        · rename_i r2 heq2
          split at h
          · rename_i v r3 heq3
            split at h
            · exact ih _ _ _ _ h
            · rename_i r4 heq4
              injection h with h
              injection h with hj hr
              rw [← hj]; rfl
            · exact Option.noConfusion h
          · exact Option.noConfusion h
        · exact Option.noConfusion h
      · exact Option.noConfusion h
    · exact Option.noConfusion h

/-- An object body only ever returns object values. -/
theorem parseObjBody_isObj (f : Nat) (cs : List Char) (j : Json) (r : List Char)
    (h : parseObjBody f cs = some (j, r)) : j.isObj = true := by
  cases f with
  | zero => cases h
  | succ f =>
    unfold parseObjBody at h
    split at h
    · rename_i r1 heq
      injection h with h
      injection h with hj hr
      rw [← hj]; rfl
    · rename_i hne
      exact parseMembers_isObj _ _ _ _ _ h

/-- The element loop only ever returns array values. -/
theorem parseElems_isArr :
    ∀ (f : Nat) (cs : List Char) (acc : List Json) (j : Json) (r : List Char),
      parseElems f cs acc = some (j, r) → j.isArr = true := by
  intro f
  induction f with
  | zero => intro cs acc j r h; cases h
  | succ f ih =>
    intro cs acc j r h
    unfold parseElems at h
    split at h
    · rename_i v r1 heq1
      split at h
      · exact ih _ _ _ _ h
      · rename_i r2 heq2
        injection h with h
        injection h with hj hr
        rw [← hj]; rfl
      · exact Option.noConfusion h
    · exact Option.noConfusion h

/-- An array body only ever returns array values. -/
theorem parseArrBody_isArr (f : Nat) (cs : List Char) (j : Json) (r : List Char)
    (h : parseArrBody f cs = some (j, r)) : j.isArr = true := by
  cases f with
  | zero => cases h
  | succ f =>
    unfold parseArrBody at h
    split at h
    · rename_i r1 heq
      injection h with h
      injection h with hj hr
      rw [← hj]; rfl
    · rename_i hne
      exact parseElems_isArr _ _ _ _ _ h

/-- An object value can only come out of the `{` dispatch branch. -/
theorem parseValue_obj_inv (f : Nat) (cs : List Char) (m : List (String × Json))
    (r : List Char) (h : parseValue f cs = some (.obj m, r)) :
    ∃ f' t, skipJWs cs = '{' :: t ∧ parseObjBody f' t = some (.obj m, r) := by
  cases f with
  | zero => cases h
  | succ f =>
    unfold parseValue at h
    split at h
    · rename_i t heq
      exact ⟨f, t, heq, h⟩
    · rename_i t heq
      have harr := parseArrBody_isArr f t _ _ h
      simp [Json.isArr] at harr
    · rename_i t heq
      split at h
      · rename_i s' r' heq2
        injection h with h
        injection h with hj hr
        exact absurd hj (by simp)
      · exact Option.noConfusion h
    · rename_i hne1 hne2 hne3
      split at h
      · injection h with h
        injection h with hj hr
        exact absurd hj (by simp)
      · split at h
        · injection h with h
          injection h with hj hr
          exact absurd hj (by simp)
        · split at h
          · injection h with h
            injection h with hj hr
            exact absurd hj (by simp)
          · split at h
            · rename_i lit r' heq2
              injection h with h
              injection h with hj hr
              exact absurd hj (by simp)
            · exact Option.noConfusion h

/-- If `json.loads` yields a dict, the text has a `{` with a `}` after it. -/
theorem parse_obj_hasPair (s : String) (m : List (String × Json))
    (h : Json.parse s = some (.obj m)) : HasPair s.data := by
  unfold Json.parse at h
  cases hv : parseValue (4 * (s.length + 4)) s.data with
  | none => rw [hv] at h; cases h
  | some pr =>
    obtain ⟨j, r⟩ := pr
    rw [hv] at h
    split at h
    · rename_i v' r3 heq0
      injection heq0 with heq0p
      injection heq0p with hj0 hr0
      split at h
      · injection h with h2
        rw [hj0, h2] at hv
        obtain ⟨f', t, hsk, hob⟩ := parseValue_obj_inv _ _ _ _ hv
        have hcl : '}' ∈ t := parseObjBody_close f' t _ _ hob
        obtain ⟨pre, hpre⟩ := skipJWs_suffix s.data
        obtain ⟨t1, t2, ht⟩ := List.append_of_mem hcl
        refine ⟨pre, t1, t2, ?_⟩
        calc s.data = pre ++ skipJWs s.data := hpre.symm
          _ = pre ++ ('{' :: t) := by rw [hsk]
          _ = pre ++ ('{' :: (t1 ++ '}' :: t2)) := by rw [ht]
          _ = pre ++ '{' :: t1 ++ '}' :: t2 := by simp
      · cases h
    · cases h

/-! ## `HasPair` bridges and the no-pair behaviour of `extract` -/

theorem hasPairB_of_hasPair (cs : List Char) (h : HasPair cs) :
    hasPairB cs = true := by
  obtain ⟨p, mid, q, hpq⟩ := h
  subst hpq
  induction p with
  | nil =>
    unfold hasPairB
    rw [List.nil_append, List.cons_append, List.dropWhile_cons, if_neg (by decide)]
    exact List.any_eq_true.mpr ⟨'}', by simp, by decide⟩
  | cons c p' ih =>
    unfold hasPairB
    rw [List.cons_append, List.cons_append, List.dropWhile_cons]
    by_cases hc : c = '{'
    · rw [if_neg (by simp [hc])]
      exact List.any_eq_true.mpr ⟨'}', by simp, by decide⟩
    · rw [if_pos (by simp [hc])]
      exact ih

theorem not_hasPair_of_b (cs : List Char) (h : hasPairB cs = false) :
    ¬ HasPair cs :=
  fun hp => by rw [hasPairB_of_hasPair cs hp] at h; cases h

theorem isCharAt_eq (cs : List Char) (i : Nat) (c : Char)
    (h : isCharAt cs i c = true) : cs[i]? = some c := by
  unfold isCharAt at h
  cases hj : cs[i]? with
  | none => rw [hj] at h; cases h
  | some c' =>
    rw [hj] at h
    have h2 : (c' == c) = true := h
    exact congrArg some (beq_iff_eq.mp h2)

theorem hasPair_of_indices (cs : List Char) (i j : Nat) (hij : i < j)
    (hi : cs[i]? = some '{') (hj : cs[j]? = some '}') : HasPair cs := by
  obtain ⟨hilen, hiv⟩ := List.getElem?_eq_some.mp hi
  obtain ⟨hjlen, hjv⟩ := List.getElem?_eq_some.mp hj
  refine ⟨cs.take i, (cs.drop (i + 1)).take (j - i - 1), cs.drop (j + 1), ?_⟩
  have h1 : cs = cs.take i ++ cs.drop i := (List.take_append_drop i cs).symm
  have h2 : cs.drop i = '{' :: cs.drop (i + 1) := by
    rw [List.drop_eq_getElem_cons hilen, hiv]
  have h3 : cs.drop (i + 1)
      = (cs.drop (i + 1)).take (j - i - 1) ++ (cs.drop (i + 1)).drop (j - i - 1) :=
    (List.take_append_drop _ _).symm
  have h4 : (cs.drop (i + 1)).drop (j - i - 1) = cs.drop j := by
    rw [List.drop_drop]
    congr 1
    omega
  have h5 : cs.drop j = '}' :: cs.drop (j + 1) := by
    rw [List.drop_eq_getElem_cons hjlen, hjv]
  calc cs = cs.take i ++ cs.drop i := h1
    _ = cs.take i ++ ('{' :: cs.drop (i + 1)) := by rw [h2]
    _ = cs.take i ++ ('{' :: ((cs.drop (i + 1)).take (j - i - 1) ++ cs.drop j)) := by
        rw [← h4, ← h3]
    _ = cs.take i ++ ('{' :: ((cs.drop (i + 1)).take (j - i - 1)
          ++ ('}' :: cs.drop (j + 1)))) := by rw [h5]
    _ = cs.take i ++ '{' :: (cs.drop (i + 1)).take (j - i - 1)
          ++ '}' :: cs.drop (j + 1) := by simp

theorem reFindBraces_none_of_noPair (t : String) (h : ¬ HasPair t.data) :
    reFindBraces t = none := by
  cases hf : reFindBraces t with
  | none => rfl
  | some c =>
    exfalso
    apply h
    unfold reFindBraces at hf
    cases h1 : findFirst (fun i => isCharAt t.data i '{' && hasCloseAfterB t.data i)
        0 t.data.length with
    | none => simp only [h1] at hf; cases hf
    | some i =>
      obtain ⟨hpi, _, _, _⟩ := findFirst_eq_some _ _ _ _ h1
      simp only [Bool.and_eq_true] at hpi
      obtain ⟨hopen, hclose⟩ := hpi
      obtain ⟨j, hij, hcj⟩ := (hasCloseAfterB_iff t.data i).mp hclose
      exact hasPair_of_indices t.data i j hij (isCharAt_eq _ _ _ hopen)
        (isCharAt_eq _ _ _ hcj)

theorem pyStripList_infix (cs : List Char) :
    ∃ u v, cs = u ++ pyStripList cs ++ v := by
  obtain ⟨a, ha⟩ := List.dropWhile_suffix (l := cs) isPyWs
  obtain ⟨u, hu⟩ := List.dropWhile_suffix
    (l := (cs.dropWhile isPyWs).reverse) isPyWs
  refine ⟨a, u.reverse, ?_⟩
  have hA : cs.dropWhile isPyWs = pyStripList cs ++ u.reverse := by
    have h2 := congrArg List.reverse hu
    simpa [List.reverse_append, pyStripList] using h2.symm
  calc cs = a ++ cs.dropWhile isPyWs := ha.symm
    _ = a ++ (pyStripList cs ++ u.reverse) := by rw [hA]
    _ = a ++ pyStripList cs ++ u.reverse := (List.append_assoc _ _ _).symm

theorem strip_noPair (s : String) (h : ¬ HasPair s.data) :
    ¬ HasPair (pythonStrip s).data := by
  rintro ⟨p, mid, q, hpq⟩
  apply h
  obtain ⟨u, v, huv⟩ := pyStripList_infix s.data
  refine ⟨u ++ p, mid, q ++ v, ?_⟩
  have hd : (pythonStrip s).data = pyStripList s.data := rfl
  rw [hd] at hpq
  rw [huv, hpq]
  simp

/-- Any candidate the brace regex returns starts with `{`. -/
theorem candidate_starts_brace (t : String) (c : String)
    (h : reFindBraces t = some c) : ∃ u, c.data = '{' :: u := by
  unfold reFindBraces at h
  cases h1 : findFirst (fun i => isCharAt t.data i '{' && hasCloseAfterB t.data i)
      0 t.data.length with
  | none => simp only [h1] at h; cases h
  | some i =>
    simp only [h1] at h
    obtain ⟨hpi, _, hin, _⟩ := findFirst_eq_some _ _ _ _ h1
    simp only [Bool.and_eq_true] at hpi
    obtain ⟨hopen, hclose⟩ := hpi
    obtain ⟨j0, hij0, hcj0⟩ := (hasCloseAfterB_iff t.data i).mp hclose
    cases h2 : findLast (fun j => isCharAt t.data j '}') t.data.length with
    | none =>
      exfalso
      unfold findLast at h2
      cases h3 : findFirst (fun k => isCharAt t.data (t.data.length - 1 - k) '}')
          0 t.data.length with
      | some k => rw [h3] at h2; cases h2
      | none =>
        have hlt := isCharAt_lt t.data j0 '}' hcj0
        have := findFirst_eq_none _ _ _ h3 (t.data.length - 1 - j0)
          (Nat.zero_le _) (by omega)
        rw [show t.data.length - 1 - (t.data.length - 1 - j0) = j0 by omega] at this
        rw [hcj0] at this
        cases this
    | some j =>
      rw [h2] at h
      injection h with h
      have hij : i < j + 1 := by
        unfold findLast at h2
        cases h3 : findFirst (fun k => isCharAt t.data (t.data.length - 1 - k) '}')
            0 t.data.length with
        | none => rw [h3] at h2; cases h2
        | some k =>
          rw [h3] at h2
          injection h2 with h2
          obtain ⟨hk, _, hkn, hkmin⟩ := findFirst_eq_some _ _ _ _ h3
          have hlt := isCharAt_lt t.data j0 '}' hcj0
          by_contra hcon
          have hkgt : t.data.length - 1 - j0 < k := by omega
          have := hkmin (t.data.length - 1 - j0) (Nat.zero_le _) hkgt
          rw [show t.data.length - 1 - (t.data.length - 1 - j0) = j0 by omega] at this
          rw [hcj0] at this
          cases this
      obtain ⟨hilen, hiv⟩ := List.getElem?_eq_some.mp (isCharAt_eq _ _ _ hopen)
      have hlt2 : i < (t.data.take (j + 1)).length := by
        rw [List.length_take]
        have := isCharAt_lt t.data j '}' (by
          unfold findLast at h2
          cases h3 : findFirst (fun k => isCharAt t.data (t.data.length - 1 - k) '}')
              0 t.data.length with
          | none => rw [h3] at h2; cases h2
          | some k =>
            rw [h3] at h2
            injection h2 with h2
            obtain ⟨hk, _, _, _⟩ := findFirst_eq_some _ _ _ _ h3
            rw [← h2]
            exact hk)
        omega
      refine ⟨((t.data.take (j + 1)).drop i).tail, ?_⟩
      rw [← h]
      show slice t.data i (j + 1) = _
      unfold slice
      rw [List.drop_eq_getElem_cons hlt2, List.getElem_take t.data, hiv]
      rfl

/-- The scrutinized `{` dispatch: a parse of a text that starts with `{`
can only produce an object. -/
theorem parseValue_brace_isObj (f : Nat) (cs t : List Char) (j : Json)
    (r : List Char) (hsk : skipJWs cs = '{' :: t)
    (h : parseValue f cs = some (j, r)) : j.isObj = true := by
  cases f with
  | zero => cases h
  | succ f =>
    unfold parseValue at h
    split at h
    · exact parseObjBody_isObj _ _ _ _ h
    · rename_i t' heq
      rw [hsk] at heq
      injection heq with hchar _
      exact absurd hchar (by decide)
    · rename_i t' heq
      rw [hsk] at heq
      injection heq with hchar _
      exact absurd hchar (by decide)
    · rename_i hne1 hne2 hne3
      exact absurd hsk (fun hh => hne1 t hh)

/-- A string whose text begins with `{` parses (if at all) to a dict. -/
theorem parse_head_brace_isObj (c : String) (u : List Char)
    (hc : c.data = '{' :: u) (j : Json) (h : Json.parse c = some j) :
    j.isObj = true := by
  unfold Json.parse at h
  cases hv : parseValue (4 * (c.length + 4)) c.data with
  | none => rw [hv] at h; cases h
  | some pr =>
    obtain ⟨j', r⟩ := pr
    rw [hv] at h
    split at h
    · rename_i v' r3 heq0
      injection heq0 with heq0p
      injection heq0p with hj0 hr0
      split at h
      · injection h with h2
        have hsk : skipJWs c.data = '{' :: u := by
          rw [hc]
          show List.dropWhile isJWs ('{' :: u) = '{' :: u
          rw [List.dropWhile_cons, if_neg (by decide)]
        have hobj := parseValue_brace_isObj _ _ _ _ _ hsk hv
        rw [← h2, ← hj0]
        exact hobj
      · cases h
    · cases h

/-- `extract_json_object` can never fail with the "not an object" error:
any candidate the brace search returns starts with `{`, and such a
candidate parses (if at all) to a dict — the raise at src/main.py line 76
is unreachable. -/
theorem extract_never_notAnObject (text : String) :
    extract_json_object text ≠ .error .notAnObject := by
  have hfb : extractFallback (pythonStrip text) ≠ .error .notAnObject := by
    unfold extractFallback
    cases hb : reFindBraces (pythonStrip text) with
    | none => simp
    | some cand =>
      obtain ⟨u, hu⟩ := candidate_starts_brace _ _ hb
      cases hp : Json.parse cand with
      | none => simp [hp]
      | some j =>
        have hobj := parse_head_brace_isObj cand u hu j hp
        simp [hp, hobj]
  show (match Json.parse (pythonStrip text) with
    | some j => if j.isObj then .ok j else extractFallback (pythonStrip text)
    | none => extractFallback (pythonStrip text)) ≠ Except.error .notAnObject
  cases hp : Json.parse (pythonStrip text) with
  | none => simpa using hfb
  | some j =>
    by_cases ho : j.isObj
    · simp [ho]
    · simpa [ho] using hfb

/-! ## The claim theorems for extraction -/

/-- C2: `extract` returns a pure-JSON dict unchanged; with the direct parse
not producing a dict, it returns the object parsed from the first-`{`-to-
last-`}` candidate region; and with no `{`...`}` pair in the text at all it
fails with `NoJsonFound`. -/
theorem C2_extract_semantics :
    (∀ text m, Json.parse (pythonStrip text) = some (.obj m) →
      extract_json_object text = .ok (.obj m)) ∧
    (∀ text cand j, (∀ m, Json.parse (pythonStrip text) ≠ some (.obj m)) →
      reFindBraces (pythonStrip text) = some cand → Json.parse cand = some j →
      j.isObj = true → extract_json_object text = .ok j) ∧
    (∀ text, ¬ HasPair text.data →
      extract_json_object text = .error .noJsonFound) := by
  refine ⟨?_, ?_, ?_⟩
  · intro text m hp
    show (match Json.parse (pythonStrip text) with
      | some j => if j.isObj then .ok j else extractFallback (pythonStrip text)
      | none => extractFallback (pythonStrip text)) = Except.ok (Json.obj m)
    rw [hp]
    simp [Json.isObj]
  · intro text cand j hno hb hp hobj
    have hfb : extractFallback (pythonStrip text) = .ok j := by
      unfold extractFallback
      simp [hb, hp, hobj]
    show (match Json.parse (pythonStrip text) with
      | some v => if v.isObj then .ok v else extractFallback (pythonStrip text)
      | none => extractFallback (pythonStrip text)) = Except.ok j
    cases hq : Json.parse (pythonStrip text) with
    | none => simpa using hfb
    | some v =>
      cases v with
      | obj m => exact absurd hq (hno m)
      | null => simpa [Json.isObj] using hfb
      | bool b => simpa [Json.isObj] using hfb
      | num lit => simpa [Json.isObj] using hfb
      | str s2 => simpa [Json.isObj] using hfb
      | arr xs => simpa [Json.isObj] using hfb
  · intro text hnp
    have hs := strip_noPair text hnp
    have hb : reFindBraces (pythonStrip text) = none :=
      reFindBraces_none_of_noPair _ hs
    have hfb : extractFallback (pythonStrip text) = .error .noJsonFound := by
      unfold extractFallback
      simp [hb]
    show (match Json.parse (pythonStrip text) with
      | some v => if v.isObj then .ok v else extractFallback (pythonStrip text)
      | none => extractFallback (pythonStrip text))
      = Except.error ExtractError.noJsonFound
    cases hq : Json.parse (pythonStrip text) with
    | none => simpa using hfb
    | some v =>
      cases v with
      | obj m => exact absurd (parse_obj_hasPair _ m hq) hs
      | null => simpa [Json.isObj] using hfb
      | bool b => simpa [Json.isObj] using hfb
      | num lit => simpa [Json.isObj] using hfb
      | str s2 => simpa [Json.isObj] using hfb
      | arr xs => simpa [Json.isObj] using hfb

/-- C2 witness: the three behaviours at concrete inputs. -/
theorem C2_extract_semantics_witness :
    extract_json_object " \x7b\"a\": 1\x7d " = .ok (.obj [("a", .num "1")]) ∧
    extract_json_object "no json here" = .error .noJsonFound :=
  ⟨C2_extract_semantics.1 " \x7b\"a\": 1\x7d " [("a", .num "1")] rfl,
   C2_extract_semantics.2.2 "no json here" (not_hasPair_of_b _ (by decide))⟩

/-- C10: when the whole trimmed text parses as non-dict JSON the
`NotAnObject` error is swallowed — indeed `extract` can never return it —
and extraction falls through to the brace search; `[{"a": 1}]` yields the
inner object and `[1, 2]` fails with `NoJsonFound`. -/
theorem C10_nonmapping_toplevel :
    (∀ text, extract_json_object text ≠ .error .notAnObject) ∧
    (∀ text j, Json.parse (pythonStrip text) = some j → j.isObj = false →
      extract_json_object text = extractFallback (pythonStrip text)) ∧
    extract_json_object "[\x7b\"a\": 1\x7d]" = .ok (.obj [("a", .num "1")]) ∧
    extract_json_object "[1, 2]" = .error .noJsonFound := by
  refine ⟨extract_never_notAnObject, ?_, rfl, rfl⟩
  intro text j hp ho
  show (match Json.parse (pythonStrip text) with
    | some v => if v.isObj then .ok v else extractFallback (pythonStrip text)
    | none => extractFallback (pythonStrip text))
    = extractFallback (pythonStrip text)
  rw [hp]
  simp [ho]

/-- C10 witness: the fall-through at a concrete non-dict top level. -/
theorem C10_nonmapping_toplevel_witness :
    extract_json_object "[0]" = extractFallback (pythonStrip "[0]") :=
  C10_nonmapping_toplevel.2.1 "[0]" (.arr [.num "0"]) rfl rfl

end TCConv
